import Mathlib

/-!
Verification of the Rubricks repository's search and training core.

The training side (`src/rubiks/train.py`) is embedded directly from the
source.  The search engine (`librubiks/solving/search.py`) is not part of the
source tree; only its tests (`tests/test_searchers.py`), callers
(`librubiks/solving/agents.py`, `librubiks/analysis/mcts.py`) and the spec
are available, so the engine is modelled from the spec (each such definition
says so in its doc comment).
-/

/-! ## Training-side embedding (src/rubiks/train.py) -/

/-- Embeds `Train._get_adi_ff_slices`: `slice_size = data_points // adi_ff_batches + 1`. -/
def sliceSize (dataPoints nb : Nat) : Nat := dataPoints / nb + 1

/-- Embeds the slice list `[slice(i*slice_size, (i+1)*slice_size) for i in range(adi_ff_batches)]`
from `Train._get_adi_ff_slices`; a slice is its (start, stop) pair. -/
def adiSlices (dataPoints nb : Nat) : List (Nat × Nat) :=
  (List.range nb).map (fun i => (i * sliceSize dataPoints nb, (i + 1) * sliceSize dataPoints nb))

/-- Python slicing `arr[a:b]`, clamped at the end of the list. -/
def applySlice {α : Type} (arr : List α) (s : Nat × Nat) : List α :=
  (arr.drop s.1).take (s.2 - s.1)

/-- Concatenation `torch.cat(value_parts)` of the per-slice evaluation results of
`Train.ADI_traindata`, applied to an input batch `arr` of `dataPoints` states. -/
def concatSlices {α : Type} (dataPoints nb : Nat) (arr : List α) : List α :=
  ((adiSlices dataPoints nb).map (applySlice arr)).flatten

/-- Embeds the `while True: try ... except RuntimeError: self.adi_ff_batches *= 2` retry
loop of `Train.ADI_traindata`.  `failsAt nb` abstracts whether the batched evaluator
call raises a resource-exhaustion `RuntimeError` when the batch is split into `nb`
sub-batches.  The loop is fuel-indexed; it returns the sub-batch count at which the
evaluation first succeeded, or `none` if it is still retrying when the fuel runs out. -/
def adiLoop (failsAt : Nat → Bool) : Nat → Nat → Option Nat
  | 0, _ => none
  | fuel + 1, nb => if failsAt nb then adiLoop failsAt fuel (2 * nb) else some nb

/-- Embeds `Train._get_batches`: `nbatches = ceil(size / bsize)`, slices
`slice(b*bsize, (b+1)*bsize)`, and the final slice clamped to end at `size`. -/
def getBatches (size bsize : Nat) : List (Nat × Nat) :=
  let nbatches := (size + bsize - 1) / bsize
  let batches := (List.range nbatches).map (fun b => (b * bsize, (b + 1) * bsize))
  batches.dropLast ++ [((nbatches - 1) * bsize, size)]

/-- The index set a (start, stop) slice selects from an array of at least `stop` entries. -/
def sliceIdcs (s : Nat × Nat) : List Nat := List.range' s.1 (s.2 - s.1)

/-- Maximum of a list of rationals (`np.max` / `torch.max` over a nonempty array;
0 on the empty list, which never occurs at use sites). -/
def maxQ : List ℚ → ℚ
  | [] => 0
  | x :: xs => xs.foldl max x

/-- First index at which the Boolean predicate holds, if any. -/
def firstIdx {α : Type} (p : α → Bool) : List α → Option Nat
  | [] => none
  | a :: tl => if p a then some 0 else (firstIdx p tl).map (· + 1)

/-- Models `torch.argmax` over a row of rationals: the first index attaining the
maximum (0 on the empty row, which never occurs at use sites). -/
def argmaxIdx (l : List ℚ) : Nat := (firstIdx (fun a => decide (a = maxQ l)) l).getD 0

/-- Embeds the reward computation of `Train.ADI_traindata`: 1 for substates equal to
the solved instance, -1 otherwise. -/
def adiReward {σ : Type} [DecidableEq σ] (solved s : σ) : ℚ := if s = solved then 1 else -1

/-- Embeds one row of `values` in `Train.ADI_traindata` after `values += rewards` and
`values.reshape(-1, 12)`: for a scrambled state `s`, entry `j` is the network value of
the `j`-th substate plus its reward.  `net` abstracts the value head, `rot` the oracle
`Cube.rotate` with action index `j`. -/
def substVals {σ : Type} [DecidableEq σ] (net : σ → ℚ) (rot : σ → Nat → σ) (solved s : σ) :
    List ℚ :=
  (List.range 12).map (fun j => net (rot s j) + adiReward solved (rot s j))

/-- Embeds `policy_targets = torch.argmax(values, dim=1)` for one scrambled state. -/
def policyTarget {σ : Type} [DecidableEq σ] (net : σ → ℚ) (rot : σ → Nat → σ) (solved s : σ) :
    Nat :=
  argmaxIdx (substVals net rot solved s)

/-- Embeds `value_targets = values[arange, policy_targets]` followed by
`value_targets[solved_scrambled_states] = 0` for one scrambled state. -/
def valueTarget {σ : Type} [DecidableEq σ] (net : σ → ℚ) (rot : σ → Nat → σ) (solved s : σ) :
    ℚ :=
  if s = solved then 0
  else (substVals net rot solved s).getD (policyTarget net rot solved s) 0

/-! ### Helper lemmas -/

theorem firstIdx_none_iff {α : Type} (p : α → Bool) (l : List α) :
    firstIdx p l = none ↔ ∀ a ∈ l, p a = false := by
  induction l with
  | nil => simp [firstIdx]
  | cons a tl ih =>
    by_cases h : p a
    · simp [firstIdx, h]
    · rw [firstIdx, if_neg h, Option.map_eq_none']
      rw [ih]
      simp only [List.mem_cons]
      constructor
      · intro hall x hx
        rcases hx with rfl | hx
        · simpa using h
        · exact hall x hx
      · intro hall x hx
        exact hall x (Or.inr hx)

theorem firstIdx_some {α : Type} (p : α → Bool) (l : List α) (i : Nat) (d : α)
    (h : firstIdx p l = some i) : i < l.length ∧ p (l.getD i d) = true := by
  induction l generalizing i with
  | nil => simp [firstIdx] at h
  | cons a tl ih =>
    by_cases ha : p a
    · simp [firstIdx, ha] at h
      subst h
      simpa using ha
    · rw [firstIdx, if_neg ha, Option.map_eq_some'] at h
      obtain ⟨j, hj, rfl⟩ := h
      obtain ⟨hlt, hp⟩ := ih j hj
      exact ⟨by simpa using Nat.succ_lt_succ hlt, by simpa using hp⟩

theorem firstIdx_min {α : Type} (p : α → Bool) (l : List α) (i : Nat) (d : α)
    (h : firstIdx p l = some i) : ∀ k < i, p (l.getD k d) = false := by
  induction l generalizing i with
  | nil => simp [firstIdx] at h
  | cons a tl ih =>
    by_cases ha : p a
    · simp [firstIdx, ha] at h
      omega
    · rw [firstIdx, if_neg ha, Option.map_eq_some'] at h
      obtain ⟨j, hj, rfl⟩ := h
      intro k hk
      cases k with
      | zero => simpa using ha
      | succ k => exact ih j hj k (by omega)

theorem foldl_max_le_init {alpha : Type} [LinearOrder alpha] (xs : List alpha)
    (x : alpha) : x ≤ xs.foldl max x := by
  induction xs generalizing x with
  | nil => simp
  | cons y ys ih => exact le_trans (le_max_left x y) (by simpa using ih (max x y))

theorem foldl_max_le_mem {alpha : Type} [LinearOrder alpha] (xs : List alpha)
    (x a : alpha) (ha : a ∈ xs) : a ≤ xs.foldl max x := by
  induction xs generalizing x with
  | nil => simp at ha
  | cons y ys ih =>
    simp only [List.foldl_cons]
    rcases List.mem_cons.mp ha with rfl | ha
    · exact le_trans (le_max_right x a) (foldl_max_le_init ys (max x a))
    · exact ih (max x y) ha

theorem foldl_max_mem {alpha : Type} [LinearOrder alpha] (xs : List alpha)
    (x : alpha) : xs.foldl max x = x ∨ xs.foldl max x ∈ xs := by
  induction xs generalizing x with
  | nil => exact Or.inl rfl
  | cons y ys ih =>
    simp only [List.foldl_cons]
    rcases ih (max x y) with h | h
    · rcases max_choice x y with hc | hc
      · exact Or.inl (by rw [h, hc])
      · exact Or.inr (by rw [h, hc]; exact List.mem_cons_self y ys)
    · exact Or.inr (List.mem_cons_of_mem _ h)

theorem maxQ_mem (l : List ℚ) (h : l ≠ []) : maxQ l ∈ l := by
  match l with
  | x :: xs =>
    rw [maxQ]
    rcases foldl_max_mem xs x with hm | hm
    · rw [hm]; exact List.mem_cons_self x xs
    · exact List.mem_cons_of_mem x hm

theorem maxQ_le (l : List ℚ) (a : ℚ) (ha : a ∈ l) : a ≤ maxQ l := by
  match l with
  | x :: xs =>
    rw [maxQ]
    rcases List.mem_cons.mp ha with rfl | ha
    · exact foldl_max_le_init xs a
    · exact foldl_max_le_mem xs x a ha

theorem argmaxIdx_spec (l : List ℚ) (h : l ≠ []) :
    argmaxIdx l < l.length ∧ l.getD (argmaxIdx l) 0 = maxQ l := by
  have hmem : maxQ l ∈ l := maxQ_mem l h
  have hne : firstIdx (fun a => decide (a = maxQ l)) l ≠ none := by
    intro hnone
    rw [firstIdx_none_iff] at hnone
    have := hnone (maxQ l) hmem
    simp at this
  obtain ⟨i, hi⟩ := Option.ne_none_iff_exists'.mp hne
  have hs := firstIdx_some _ l i 0 hi
  refine ⟨?_, ?_⟩
  · simpa [argmaxIdx, hi] using hs.1
  · have := hs.2
    simp only [decide_eq_true_eq] at this
    simpa [argmaxIdx, hi] using this

/-- Maximum of a list of integers (same shape as `maxQ`, for the search model). -/
def maxZ : List ℤ → ℤ
  | [] => 0
  | x :: xs => xs.foldl max x

theorem maxZ_mem (l : List ℤ) (h : l ≠ []) : maxZ l ∈ l := by
  match l with
  | x :: xs =>
    rw [maxZ]
    rcases foldl_max_mem xs x with hm | hm
    · rw [hm]; exact List.mem_cons_self x xs
    · exact List.mem_cons_of_mem x hm

theorem maxZ_le (l : List ℤ) (a : ℤ) (ha : a ∈ l) : a ≤ maxZ l := by
  match l with
  | x :: xs =>
    rw [maxZ]
    rcases List.mem_cons.mp ha with rfl | ha
    · exact foldl_max_le_init xs a
    · exact foldl_max_le_mem xs x a ha

/-- First index attaining the maximum of a list of integers (same shape as
`argmaxIdx`, for the search model). -/
def argmaxZ (l : List ℤ) : Nat := (firstIdx (fun a => decide (a = maxZ l)) l).getD 0

theorem argmaxZ_spec (l : List ℤ) (h : l ≠ []) :
    argmaxZ l < l.length ∧ l.getD (argmaxZ l) 0 = maxZ l := by
  have hmem : maxZ l ∈ l := maxZ_mem l h
  have hne : firstIdx (fun a => decide (a = maxZ l)) l ≠ none := by
    intro hnone
    rw [firstIdx_none_iff] at hnone
    have := hnone (maxZ l) hmem
    simp at this
  obtain ⟨i, hi⟩ := Option.ne_none_iff_exists'.mp hne
  have hs := firstIdx_some _ l i 0 hi
  refine ⟨?_, ?_⟩
  · simpa [argmaxZ, hi] using hs.1
  · have := hs.2
    simp only [decide_eq_true_eq] at this
    simpa [argmaxZ, hi] using this

theorem flatten_range_take {α : Type} (ss : Nat) (arr : List α) :
    ∀ k, ((List.range k).map (fun i => (arr.drop (i * ss)).take ss)).flatten
      = arr.take (k * ss) := by
  intro k
  induction k with
  | zero => simp
  | succ k ih =>
    rw [List.range_succ, List.map_append, List.flatten_append, ih]
    have hadd : (k + 1) * ss = k * ss + ss := by rw [Nat.succ_mul]
    rw [hadd, List.take_add]
    simp

theorem flatten_range_range' (bs : Nat) :
    ∀ k, ((List.range k).map (fun b => List.range' (b * bs) bs)).flatten
      = List.range' 0 (k * bs) := by
  intro k
  induction k with
  | zero => simp
  | succ k ih =>
    rw [List.range_succ, List.map_append, List.flatten_append, ih]
    have h := List.range'_append 0 (k * bs) bs 1
    simp only [Nat.one_mul, Nat.zero_add] at h
    simp only [List.map_cons, List.map_nil, List.flatten_cons, List.flatten_nil,
      List.append_nil]
    rw [h]
    congr 1
    rw [Nat.succ_mul]
    omega

theorem dropLast_map_range {α : Type} (f : Nat → α) (n : Nat) (hn : 1 ≤ n) :
    ((List.range n).map f).dropLast = (List.range (n - 1)).map f := by
  obtain ⟨m, rfl⟩ : ∃ m, n = m + 1 := ⟨n - 1, by omega⟩
  rw [List.range_succ, List.map_append]
  simp [List.dropLast_concat]

/-- Claim C9: for every `size >= 1` and `bsize >= 1`, the slices produced by
`Train._get_batches` partition the index range `0..size-1` (concatenating them yields
every index exactly once, in order), no slice extends past `size`, the last slice is
clamped to end at `size`, and the number of slices is the ceiling of `size / bsize`. -/
theorem C9_get_batches_partition (size bsize : Nat) (hs : 1 ≤ size) (hb : 1 ≤ bsize) :
    ((getBatches size bsize).map sliceIdcs).flatten = List.range size ∧
    (∀ sl ∈ getBatches size bsize, sl.2 ≤ size) ∧
    (getBatches size bsize).getLast?
      = some (((size + bsize - 1) / bsize - 1) * bsize, size) ∧
    (getBatches size bsize).length = (size + bsize - 1) / bsize := by
  set n := (size + bsize - 1) / bsize with hn
  have hceil : n = (size - 1) / bsize + 1 := by
    have h1 : size + bsize - 1 = (size - 1) + bsize := by omega
    rw [hn, h1, Nat.add_div_right _ (by omega)]
  have hmle : (n - 1) * bsize ≤ size - 1 := by
    rw [hceil]
    simpa using Nat.div_mul_le_self (size - 1) bsize
  have hn1 : 1 ≤ n := by rw [hceil]; exact Nat.le_add_left 1 _
  have hbatches : getBatches size bsize
      = (List.range (n - 1)).map (fun b => (b * bsize, (b + 1) * bsize))
        ++ [((n - 1) * bsize, size)] := by
    rw [getBatches]
    rw [dropLast_map_range _ n hn1]
  have hslice : ∀ b : Nat, sliceIdcs (b * bsize, (b + 1) * bsize)
      = List.range' (b * bsize) bsize := by
    intro b
    rw [sliceIdcs]
    congr 1
    rw [Nat.succ_mul]
    omega
  refine ⟨?_, ?_, ?_, ?_⟩
  · rw [hbatches, List.map_append, List.flatten_append]
    have hmap : (List.range (n - 1)).map
          (sliceIdcs ∘ fun b => (b * bsize, (b + 1) * bsize))
        = (List.range (n - 1)).map (fun b => List.range' (b * bsize) bsize) :=
      List.map_congr_left (fun b _ => hslice b)
    rw [List.map_map, hmap, flatten_range_range']
    simp only [List.map_cons, List.map_nil, List.flatten_cons, List.flatten_nil,
      List.append_nil, sliceIdcs]
    have h := List.range'_append 0 ((n - 1) * bsize) (size - (n - 1) * bsize) 1
    simp only [Nat.one_mul, Nat.zero_add] at h
    rw [h, List.range_eq_range']
    congr 1
    omega
  · intro sl hsl
    rw [hbatches] at hsl
    rcases List.mem_append.mp hsl with hsl | hsl
    · obtain ⟨b, hbmem, rfl⟩ := List.mem_map.mp hsl
      have hblt : b < n - 1 := List.mem_range.mp hbmem
      have : (b + 1) * bsize ≤ (n - 1) * bsize := Nat.mul_le_mul_right _ (by omega)
      show (b + 1) * bsize ≤ size
      exact le_trans this (le_trans hmle (by omega))
    · simp only [List.mem_singleton] at hsl
      subst hsl
      exact Nat.le_refl size
  · rw [hbatches, List.getLast?_concat]
  · rw [hbatches]
    simp only [List.length_append, List.length_map, List.length_range,
      List.length_singleton]
    exact Nat.sub_add_cancel hn1

/-- Claim C9 witness at size 5, bsize 2. -/
theorem C9_witness :
    ((getBatches 5 2).map sliceIdcs).flatten = List.range 5 ∧
    (∀ sl ∈ getBatches 5 2, sl.2 ≤ 5) ∧
    (getBatches 5 2).getLast? = some (((5 + 2 - 1) / 2 - 1) * 2, 5) ∧
    (getBatches 5 2).length = (5 + 2 - 1) / 2 :=
  C9_get_batches_partition 5 2 (by norm_num) (by norm_num)

theorem adiLoop_alwaysFail (fuel nb : Nat) : adiLoop (fun _ => true) fuel nb = none := by
  induction fuel generalizing nb with
  | zero => rfl
  | succ fuel ih => simpa [adiLoop] using ih (2 * nb)

theorem adiLoop_never_forall (failsAt : Nat → Bool) (nb : Nat)
    (h : ∀ fuel, adiLoop failsAt fuel nb = none) :
    ∀ j, failsAt (2 ^ j * nb) = true := by
  intro j
  induction j generalizing nb with
  | zero =>
    by_contra hfa
    have h1 := h 1
    rw [adiLoop, if_neg (by simpa using hfa)] at h1
    exact Option.some_ne_none nb h1
  | succ j ih =>
    have h0 : failsAt nb = true := by
      by_contra hfa
      have h1 := h 1
      rw [adiLoop, if_neg (by simpa using hfa)] at h1
      exact Option.some_ne_none nb h1
    have h2 : ∀ fuel, adiLoop failsAt fuel (2 * nb) = none := by
      intro fuel
      have := h (fuel + 1)
      rwa [adiLoop, if_pos h0] at this
    have := ih (2 * nb) h2
    have heq : 2 ^ j * (2 * nb) = 2 ^ (j + 1) * nb := by ring
    rwa [heq] at this

theorem adiLoop_some_pow (failsAt : Nat → Bool) (fuel : Nat) :
    ∀ nb nbr, adiLoop failsAt fuel nb = some nbr → ∃ j, nbr = 2 ^ j * nb := by
  induction fuel with
  | zero => intro nb nbr h; simp [adiLoop] at h
  | succ fuel ih =>
    intro nb nbr h
    rw [adiLoop] at h
    by_cases hf : failsAt nb
    · rw [if_pos hf] at h
      obtain ⟨j, hj⟩ := ih (2 * nb) nbr h
      exact ⟨j + 1, by rw [hj]; ring⟩
    · rw [if_neg hf] at h
      exact ⟨0, by simpa using (Option.some_inj.mp h).symm⟩

theorem concatSlices_covers {α : Type} (dp nb : Nat) (arr : List α)
    (hnb : 1 ≤ nb) (hlen : arr.length = dp) : concatSlices dp nb arr = arr := by
  have hslice : ∀ i : Nat,
      applySlice arr (i * sliceSize dp nb, (i + 1) * sliceSize dp nb)
      = (arr.drop (i * sliceSize dp nb)).take (sliceSize dp nb) := by
    intro i
    rw [applySlice]
    congr 1
    rw [Nat.succ_mul]
    omega
  have hmap : (adiSlices dp nb).map (applySlice arr)
      = (List.range nb).map
          (fun i => (arr.drop (i * sliceSize dp nb)).take (sliceSize dp nb)) := by
    rw [adiSlices, List.map_map]
    exact List.map_congr_left (fun i _ => hslice i)
  rw [concatSlices, hmap, flatten_range_take]
  apply List.take_of_length_le
  rw [hlen, sliceSize, Nat.mul_add, Nat.mul_one]
  have hdm := Nat.div_add_mod dp nb
  have hmlt : dp % nb < nb := Nat.mod_lt _ (by omega)
  generalize hX : nb * (dp / nb) = X at hdm ⊢
  generalize hM : dp % nb = M at hdm hmlt
  omega

/-- Claim C8: the ADI feedforward retry loop of `Train.ADI_traindata` recovers from a
resource-exhaustion failure by doubling the sub-batch count (so sub-batch sizes never
grow and eventually reach a single state); if the loop never succeeds then in
particular a minimal single-state sub-batching fails; and on successful retry the
concatenated sub-batch results cover exactly the original batch. -/
theorem C8_adi_ff_recovery :
    (∀ dp nb : Nat, sliceSize dp (2 * nb) ≤ sliceSize dp nb) ∧
    (∀ (failsAt : Nat → Bool) (dp : Nat), (∀ fuel, adiLoop failsAt fuel 1 = none) →
      ∃ nb, failsAt nb = true ∧ sliceSize dp nb = 1) ∧
    (∀ (failsAt : Nat → Bool) (fuel nb : Nat) (arr : List Nat) (dp : Nat),
      adiLoop failsAt fuel 1 = some nb → arr.length = dp →
      concatSlices dp nb arr = arr) := by
  refine ⟨?_, ?_, ?_⟩
  · intro dp nb
    rcases Nat.eq_zero_or_pos nb with rfl | hpos
    · simp
    · have hdiv : dp / (2 * nb) ≤ dp / nb :=
        Nat.div_le_div_left (Nat.le_mul_of_pos_left nb (by norm_num)) hpos
      simpa [sliceSize] using Nat.add_le_add_right hdiv 1
  · intro failsAt dp hnone
    refine ⟨2 ^ (dp + 1), ?_, ?_⟩
    · simpa using adiLoop_never_forall failsAt 1 hnone (dp + 1)
    · rw [sliceSize, Nat.div_eq_of_lt]
      calc dp < 2 ^ dp := Nat.lt_two_pow dp
        _ ≤ 2 ^ (dp + 1) := Nat.pow_le_pow_right (by norm_num) (Nat.le_succ dp)
  · intro failsAt fuel nb arr dp hsome hlen
    obtain ⟨j, hj⟩ := adiLoop_some_pow failsAt fuel 1 nb hsome
    have hnb : 1 ≤ nb := by
      rw [hj, Nat.mul_one]
      exact Nat.one_le_two_pow
    exact concatSlices_covers dp nb arr hnb hlen

/-- Claim C8 witness: sub-batch sizes shrink under doubling; with an evaluator that
always fails, a single-state sub-batching fails; a loop succeeding at 2 sub-batches
covers the original 3-element batch. -/
theorem C8_witness :
    sliceSize 4 2 ≤ sliceSize 4 1 ∧
    (∃ nb, (fun _ => true) nb = true ∧ sliceSize 4 nb = 1) ∧
    concatSlices 3 2 [10, 20, 30] = [10, 20, 30] :=
  ⟨C8_adi_ff_recovery.1 4 1,
   C8_adi_ff_recovery.2.1 (fun _ => true) 4 (fun fuel => adiLoop_alwaysFail fuel 1),
   C8_adi_ff_recovery.2.2 (fun nb => decide (nb < 2)) 4 2 [10, 20, 30] 3 (by decide) rfl⟩

theorem substVals_length {σ : Type} [DecidableEq σ] (net : σ → ℚ) (rot : σ → Nat → σ)
    (solved s : σ) : (substVals net rot solved s).length = 12 := by
  simp [substVals]

theorem substVals_getD {σ : Type} [DecidableEq σ] (net : σ → ℚ) (rot : σ → Nat → σ)
    (solved s : σ) (j : Nat) (hj : j < 12) :
    (substVals net rot solved s).getD j 0
      = net (rot s j) + (if rot s j = solved then 1 else -1) := by
  rw [substVals, List.getD_eq_getElem _ _ (by simpa using hj), List.getElem_map]
  simp [adiReward]

/-- Claim C10: in `Train.ADI_traindata`, a scrambled state equal to the solved
configuration receives value target exactly 0; any other state receives value target
equal to the maximum over its 12 successor states of (network value + reward), with
reward 1 for a solved successor and -1 otherwise, and the policy target attains that
maximum. -/
theorem C10_adi_targets {σ : Type} [DecidableEq σ] (net : σ → ℚ) (rot : σ → Nat → σ)
    (solved s : σ) :
    (substVals net rot solved s).length = 12 ∧
    (∀ j < 12, (substVals net rot solved s).getD j 0
        = net (rot s j) + (if rot s j = solved then 1 else -1)) ∧
    (s = solved → valueTarget net rot solved s = 0) ∧
    (s ≠ solved →
      valueTarget net rot solved s = maxQ (substVals net rot solved s) ∧
      (substVals net rot solved s).getD (policyTarget net rot solved s) 0
        = maxQ (substVals net rot solved s) ∧
      ∀ j < 12, (substVals net rot solved s).getD j 0
        ≤ maxQ (substVals net rot solved s)) := by
  have hne : substVals net rot solved s ≠ [] := by
    intro h
    have := substVals_length net rot solved s
    rw [h] at this
    simp at this
  have hattain := argmaxIdx_spec (substVals net rot solved s) hne
  refine ⟨substVals_length net rot solved s, substVals_getD net rot solved s, ?_, ?_⟩
  · intro hsol
    rw [valueTarget, if_pos hsol]
  · intro hsol
    refine ⟨?_, hattain.2, ?_⟩
    · rw [valueTarget, if_neg hsol, policyTarget]
      exact hattain.2
    · intro j hj
      apply maxQ_le
      rw [List.getD_eq_getElem _ _ (by rw [substVals_length]; exact hj)]
      exact List.getElem_mem _

/-- Claim C10 witness at a concrete oracle over natural-number states. -/
theorem C10_witness :
    (substVals (fun s : Nat => (s : ℚ)) (fun s j => s + j + 1) 100 0).length = 12 ∧
    (∀ j < 12, (substVals (fun s : Nat => (s : ℚ)) (fun s j => s + j + 1) 100 0).getD j 0
        = ((0 + j + 1 : Nat) : ℚ) + (if (0 + j + 1 : Nat) = 100 then 1 else -1)) ∧
    ((0 : Nat) = 100 →
      valueTarget (fun s : Nat => (s : ℚ)) (fun s j => s + j + 1) 100 0 = 0) ∧
    ((0 : Nat) ≠ 100 →
      valueTarget (fun s : Nat => (s : ℚ)) (fun s j => s + j + 1) 100 0
        = maxQ (substVals (fun s : Nat => (s : ℚ)) (fun s j => s + j + 1) 100 0) ∧
      (substVals (fun s : Nat => (s : ℚ)) (fun s j => s + j + 1) 100 0).getD
          (policyTarget (fun s : Nat => (s : ℚ)) (fun s j => s + j + 1) 100 0) 0
        = maxQ (substVals (fun s : Nat => (s : ℚ)) (fun s j => s + j + 1) 100 0) ∧
      ∀ j < 12, (substVals (fun s : Nat => (s : ℚ)) (fun s j => s + j + 1) 100 0).getD j 0
        ≤ maxQ (substVals (fun s : Nat => (s : ℚ)) (fun s j => s + j + 1) 100 0)) :=
  C10_adi_targets (fun s : Nat => (s : ℚ)) (fun s j => s + j + 1) 100 0

/-! ## Search-engine model

The MCTS and best-first engines live in `librubiks/solving/search.py`, which is not
part of the available source tree; they are modelled from the spec below.  States are
kept abstract; the canonical key of spec 2 (`numpy.ndarray.tostring`, injective on
states) is modelled as the state itself. -/

/-- Modelled from the spec: the state-transition oracle and neural evaluator consumed
by the missing `librubiks/solving/search.py` (spec 6): `rotate` is `Cube.rotate` by
action index (12 actions, indices 0..11), `solved` the solved configuration, `netV`
and `netP` the evaluator's cached value and prior for a state, `cExp` the exploration
constant `c`.  The engine only compares, maximizes and combines evaluator scalars,
so they are modelled as integers. -/
structure Oracle (sigma : Type) where
  rotate : sigma → Nat → sigma
  solved : sigma
  netV : sigma → ℤ
  netP : sigma → Nat → ℤ
  cExp : ℤ

/-- Modelled from the spec: one node of the structure-of-arrays tree storage of the
missing `librubiks/solving/search.py` (spec 3): state, neighbor row (0 = absent),
cached value `V`, cached policy row `P`, visit counts `N`, and backed-up values `W`
with 0 as the pending marker (spec 9: the engine uses the overloaded sentinel 0). -/
structure MNode (sigma : Type) where
  st : sigma
  nbs : List Nat
  val : ℤ
  pol : List ℤ
  vis : List Nat
  w : List ℤ
deriving DecidableEq

/-- Modelled from the spec: dereferencing handle 0 or an unallocated handle never
denotes a real node (spec 3); such a dereference yields this inert placeholder. -/
def dummyNode {sigma : Type} (O : Oracle sigma) : MNode sigma :=
  { st := O.solved, nbs := List.replicate 12 0, val := 0, pol := List.replicate 12 0,
    vis := List.replicate 12 0, w := List.replicate 12 0 }

/-- Node stored at handle h (handles are 1-based; nodes are stored densely). -/
def getNode {sigma : Type} (O : Oracle sigma) (nodes : List (MNode sigma)) (h : Nat) :
    MNode sigma :=
  if h = 0 then dummyNode O else nodes.getD (h - 1) (dummyNode O)

/-- The handle-to-state storage view (`searcher.states`). -/
def stsOf {sigma : Type} (nodes : List (MNode sigma)) : List sigma := nodes.map MNode.st

/-- Modelled from the spec: the transposition-index lookup (`searcher.indices`):
the canonical key of a state maps to the handle of its (unique) node, if interned. -/
def lookupH {sigma : Type} [DecidableEq sigma] (nodes : List (MNode sigma)) (s : sigma) :
    Option Nat :=
  (firstIdx (fun nd => decide (nd.st = s)) nodes).map (· + 1)

/-- Modelled from the spec: a freshly discovered node (spec 3 lifecycle): policy and
value are written once from the evaluator, the neighbor row is all-absent, visit
counts are zero and all `W` entries hold the pending marker 0. -/
def freshNode {sigma : Type} (O : Oracle sigma) (s : sigma) : MNode sigma :=
  { st := s, nbs := List.replicate 12 0, val := O.netV s,
    pol := (List.range 12).map (O.netP s), vis := List.replicate 12 0,
    w := List.replicate 12 0 }

/-- Modelled from the spec: `internState` (spec 4.1): return the existing handle of
the canonical key if present, else allocate the next integer handle. -/
def internState {sigma : Type} [DecidableEq sigma] (O : Oracle sigma)
    (nodes : List (MNode sigma)) (s : sigma) : List (MNode sigma) × Nat :=
  match lookupH nodes s with
  | some h => (nodes, h)
  | none => (nodes ++ [freshNode O s], nodes.length + 1)

/-- Modelled from the spec: intern a list of child states in order, returning the
updated storage and their handles. -/
def internChildren {sigma : Type} [DecidableEq sigma] (O : Oracle sigma)
    (nodes : List (MNode sigma)) : List sigma → List (MNode sigma) × List Nat
  | [] => (nodes, [])
  | s :: rest =>
    let pr := internState O nodes s
    let pr2 := internChildren O pr.1 rest
    (pr2.1, pr.2 :: pr2.2)

/-- Replace the node at handle h by f applied to it (no-op on handle 0 or out of
range). -/
def updNode {sigma : Type} (O : Oracle sigma) (nodes : List (MNode sigma)) (h : Nat)
    (f : MNode sigma → MNode sigma) : List (MNode sigma) :=
  if h = 0 then nodes else nodes.set (h - 1) (f (getNode O nodes h))

/-- Modelled from the spec: `isLeaf` is derived — true iff some neighbor is absent
(spec 3). -/
def isLeafN {sigma : Type} (nd : MNode sigma) : Bool := nd.nbs.any (fun x => decide (x = 0))

/-- Modelled from the spec: the selection score (spec 4.2 step 2) combines the
backed-up value, the cached prior and an exploration bonus scaled by `c` and damped
by the per-action visit count; its exact formula is explicitly unconstrained
(spec 9, open question), so a simple representative of that shape is used. -/
def scoreOf {sigma : Type} (O : Oracle sigma) (nd : MNode sigma) (j : Nat) : ℤ :=
  nd.w.getD j 0 + O.cExp * nd.pol.getD j 0 / (1 + (nd.vis.getD j 0 : ℤ))

/-- Modelled from the spec: selection (spec 4.2 step 2): from the root handle 1,
repeatedly pick the best-scoring action and descend until a leaf is reached,
recording the traversed (handle, action) path; fuel-indexed to stay total on cyclic
neighbor structures (where the engine would not terminate either). -/
def selPath {sigma : Type} (O : Oracle sigma) (nodes : List (MNode sigma)) :
    Nat → Nat → List (Nat × Nat) → Option (List (Nat × Nat) × Nat)
  | 0, _, _ => none
  | fuel + 1, h, acc =>
    let nd := getNode O nodes h
    if isLeafN nd then some (acc, h)
    else
      let j := argmaxZ ((List.range 12).map (scoreOf O nd))
      selPath O nodes fuel (nd.nbs.getD j 0) (acc ++ [(h, j)])

/-- Modelled from the spec: visit counts `N` are incremented along the selected path
and persist as true statistics (spec 4.2 step 5); only the transient virtual-loss
scoring bias is reverted, so it leaves no trace in the post-iteration state. -/
def bumpVis {sigma : Type} (O : Oracle sigma) (nodes : List (MNode sigma))
    (path : List (Nat × Nat)) : List (MNode sigma) :=
  path.foldl
    (fun ns hj =>
      updNode O ns hj.1
        (fun nd => { nd with vis := nd.vis.set hj.2 (nd.vis.getD hj.2 0 + 1) }))
    nodes

/-- Modelled from the spec: a child handle is fully expanded when it is a real node
every entry of whose own neighbor row is non-absent (spec 4.2 step 5). -/
def fullyExp {sigma : Type} (O : Oracle sigma) (nodes : List (MNode sigma)) (h : Nat) :
    Bool :=
  decide (h ≠ 0) && (getNode O nodes h).nbs.all (fun x => decide (x ≠ 0))

/-- Modelled from the spec: the two-ply backup value for a fully expanded child: the
maximum over the child's neighbors of their cached values (spec 4.2 step 5). -/
def maxGrand {sigma : Type} (O : Oracle sigma) (nodes : List (MNode sigma)) (h : Nat) :
    ℤ :=
  maxZ ((getNode O nodes h).nbs.map (fun c => (getNode O nodes c).val))

/-- Modelled from the spec: the finalized `W` row of a node — per action, the two-ply
maximum exactly when the child is fully expanded, else the pending marker 0
(spec 4.2 step 5 and spec 8). -/
def wRule {sigma : Type} (O : Oracle sigma) (nodes : List (MNode sigma))
    (nd : MNode sigma) : List ℤ :=
  nd.nbs.map (fun c => if fullyExp O nodes c then maxGrand O nodes c else 0)

/-- Modelled from the spec: the backup phase (spec 4.2 step 5).  The tests
(tests/test_searchers.py, lines 63-71) assert the finalization condition for every
allocated node after the call, so backup is modelled as finalizing every eligible
(node, action) pair after each expansion. -/
def sweepW {sigma : Type} (O : Oracle sigma) (nodes : List (MNode sigma)) :
    List (MNode sigma) :=
  nodes.map (fun nd => { nd with w := wRule O nodes nd })

/-- Modelled from the spec: the per-session engine state — the tree storage plus the
call's outcome once decided: `some (solvedFound, actionQueue)`. -/
structure SState (sigma : Type) where
  nodes : List (MNode sigma)
  res : Option (Bool × List Nat)
deriving DecidableEq

/-- Modelled from the spec: session start (spec 4.2 step 1): the root state is
interned first, receiving handle 1; a root that is already the solved configuration
succeeds immediately with the empty action queue. -/
def mctsInit {sigma : Type} [DecidableEq sigma] (O : Oracle sigma) (root : sigma) :
    SState sigma :=
  { nodes := [freshNode O root],
    res := if root = O.solved then some (true, []) else none }

/-- Modelled from the spec: the node-budget check, polled between iterations
(spec 5): `none` means no node budget. -/
def budgetHit (maxN : Option Nat) (k : Nat) : Bool :=
  match maxN with
  | none => false
  | some m => decide (m ≤ k)

/-- Modelled from the spec: one outer iteration of the MCTS search loop (spec 4.2):
budget check, selection, expansion of the selected leaf (interning all 12 children
and writing the leaf's neighbor row), backup of `W`, and the solved check on the
child states.  A state whose result is decided is left unchanged. -/
def expNodes1 {sigma : Type} (O : Oracle sigma) (s : SState sigma)
    (pl : List (Nat × Nat) × Nat) : List (MNode sigma) :=
  bumpVis O s.nodes pl.1

/-- Modelled from the spec: the 12 successor states of the selected leaf, generated
through the oracle (spec 4.2 step 3). -/
def expCs {sigma : Type} (O : Oracle sigma) (s : SState sigma)
    (pl : List (Nat × Nat) × Nat) : List sigma :=
  (List.range 12).map (fun j => O.rotate (getNode O (expNodes1 O s pl) pl.2).st j)

def expPr {sigma : Type} [DecidableEq sigma] (O : Oracle sigma) (s : SState sigma)
    (pl : List (Nat × Nat) × Nat) : List (MNode sigma) × List Nat :=
  internChildren O (expNodes1 O s pl) (expCs O s pl)

/-- Modelled from the spec: expansion followed by backup (spec 4.2 steps 3 and 5):
the interned child handles become the leaf's neighbor row and `W` is finalized
wherever the two-ply condition now holds. -/
def expNodes3 {sigma : Type} [DecidableEq sigma] (O : Oracle sigma) (s : SState sigma)
    (pl : List (Nat × Nat) × Nat) : List (MNode sigma) :=
  sweepW O (updNode O (expPr O s pl).1 pl.2 (fun nd => { nd with nbs := (expPr O s pl).2 }))

/-- Modelled from the spec: the tail of one iteration after selection returned the
path `pl.1` and leaf `pl.2`: expand, back up, then check the child states for the
solved configuration (spec 4.2 steps 3-5). -/
def mctsExpand {sigma : Type} [DecidableEq sigma] (O : Oracle sigma) (s : SState sigma)
    (pl : List (Nat × Nat) × Nat) : SState sigma :=
  match firstIdx (fun c => decide (c = O.solved)) (expCs O s pl) with
  | some j => { nodes := expNodes3 O s pl, res := some (true, pl.1.map Prod.snd ++ [j]) }
  | none => { nodes := expNodes3 O s pl, res := none }

def mctsStep {sigma : Type} [DecidableEq sigma] (O : Oracle sigma) (maxN : Option Nat)
    (s : SState sigma) : SState sigma :=
  if s.res.isSome then s
  else if budgetHit maxN s.nodes.length then { s with res := some (false, []) }
  else
    match selPath O s.nodes (s.nodes.length + 1) 1 [] with
    | none => s
    | some pl => mctsExpand O s pl

/-- Modelled from the spec: `search(rootState, timeLimit, maxNodes?)` (spec 4.2);
the wall-clock time budget is abstracted as the number `fuel` of outer iterations
the budget allows. -/
def mctsSearch {sigma : Type} [DecidableEq sigma] (O : Oracle sigma) (root : sigma)
    (fuel : Nat) (maxN : Option Nat) : SState sigma :=
  (mctsStep O maxN)^[fuel] (mctsInit O root)

/-- The boolean result reported to the caller: false when the budget ran out with no
decision (spec 4.2: exceeding the budget is a normal `false` outcome). -/
def searchBool {sigma : Type} (s : SState sigma) : Bool :=
  match s.res with
  | some r => r.1
  | none => false

/-- The retrievable action queue (`searcher.action_queue`). -/
def queueOf {sigma : Type} (s : SState sigma) : List Nat :=
  match s.res with
  | some r => r.2
  | none => []

/-- Models the caller's FIFO drain of the action queue
(`Agent.actions` / `action_queue.popleft()` in `librubiks/solving/agents.py`): each
drained action is the current front of the queue. -/
def drainAll {alpha : Type} : List alpha → List alpha
  | [] => []
  | a :: q => a :: drainAll q

/-- The reported table size `len(searcher.indices)`: the number of distinct canonical
keys held by the transposition index. -/
def tableSize {sigma : Type} [DecidableEq sigma] (nodes : List (MNode sigma)) : Nat :=
  (stsOf nodes).dedup.length

/-- The list of handle values of the transposition index
(`searcher.indices.values()`), in key insertion order. -/
def handleList {sigma : Type} [DecidableEq sigma] (nodes : List (MNode sigma)) :
    List Nat :=
  (stsOf nodes).map (fun s => (lookupH nodes s).getD 0)

/-- Modelled from the spec: `get_neighbors` of the best-first (A*) engine
(spec 4.3): exactly 12 successor states, one per action, regardless of the
solved-ness of any of them. -/
def astarNeighbors {sigma : Type} (O : Oracle sigma) (s : sigma) : List sigma :=
  (List.range 12).map (fun j => O.rotate s j)

/-! ### Tree-storage lemmas -/

theorem set_getElem_self {alpha : Type} (l : List alpha) (i : Nat) (a : alpha)
    (hi : i < l.length) (ha : a = l[i]) : l.set i a = l := by
  apply List.ext_get (by simp)
  intro n h1 h2
  simp only [List.get_eq_getElem]
  by_cases hni : i = n
  · subst hni
    rw [List.getElem_set_self, ha]
  · rw [List.getElem_set_ne hni]

theorem getNode_in {sigma : Type} (O : Oracle sigma) (nodes : List (MNode sigma))
    (h : Nat) (h1 : 1 ≤ h) (h2 : h ≤ nodes.length) :
    getNode O nodes h = getElem nodes (h - 1) (by omega) := by
  rw [getNode, if_neg (by omega), List.getD_eq_getElem _ _ (by omega)]

theorem getNode_st_mem {sigma : Type} (O : Oracle sigma) (nodes : List (MNode sigma))
    (h : Nat) (h1 : 1 ≤ h) (h2 : h ≤ nodes.length) :
    (getNode O nodes h).st ∈ stsOf nodes := by
  rw [getNode_in O nodes h h1 h2, stsOf]
  exact List.mem_map_of_mem _ (List.getElem_mem _)

theorem getNode_mem {sigma : Type} (O : Oracle sigma) (nodes : List (MNode sigma))
    (h : Nat) (h1 : 1 ≤ h) (h2 : h ≤ nodes.length) : getNode O nodes h ∈ nodes := by
  rw [getNode_in O nodes h h1 h2]
  exact List.getElem_mem _

theorem getNode_append {sigma : Type} (O : Oracle sigma) (nodes ext : List (MNode sigma))
    (h : Nat) (h2 : h ≤ nodes.length) :
    getNode O (nodes ++ ext) h = getNode O nodes h := by
  rcases Nat.eq_zero_or_pos h with rfl | hpos
  · simp [getNode]
  · rw [getNode_in O _ h hpos (by simp; omega), getNode_in O nodes h hpos h2]
    exact List.getElem_append_left (by omega)

theorem getNode_of_isPre {sigma : Type} (O : Oracle sigma)
    {nodes big : List (MNode sigma)} (hpre : nodes <+: big) (h : Nat)
    (h2 : h ≤ nodes.length) : getNode O big h = getNode O nodes h := by
  obtain ⟨ext, rfl⟩ := hpre
  exact getNode_append O nodes ext h h2

theorem lookupH_isSome_iff {sigma : Type} [DecidableEq sigma]
    (nodes : List (MNode sigma)) (s : sigma) :
    (lookupH nodes s).isSome = true ↔ s ∈ stsOf nodes := by
  rw [lookupH]
  rcases hfi : firstIdx (fun nd => decide (nd.st = s)) nodes with _ | i
  · rw [hfi]
    simp only [Option.map_none', Option.isSome_none]
    rw [firstIdx_none_iff] at hfi
    constructor
    · intro hfalse; exact absurd hfalse (by simp)
    · intro hmem
      obtain ⟨nd, hnd, hst⟩ := List.mem_map.mp hmem
      have := hfi nd hnd
      simp [hst] at this
  · rw [hfi]
    simp only [Option.map_some', Option.isSome_some, true_iff]
    obtain ⟨hlt, hp⟩ := firstIdx_some _ nodes i ⟨s, [], 0, [], [], []⟩ hfi
    simp only [decide_eq_true_eq] at hp
    rw [← hp, stsOf]
    rw [List.getD_eq_getElem _ _ hlt]
    exact List.mem_map_of_mem _ (List.getElem_mem _)

theorem lookupH_some {sigma : Type} [DecidableEq sigma] (O : Oracle sigma)
    (nodes : List (MNode sigma)) (s : sigma) (h : Nat)
    (hl : lookupH nodes s = some h) :
    1 ≤ h ∧ h ≤ nodes.length ∧ (getNode O nodes h).st = s := by
  rw [lookupH] at hl
  rcases hfi : firstIdx (fun nd => decide (nd.st = s)) nodes with _ | i
  · rw [hfi] at hl; simp at hl
  · rw [hfi] at hl
    simp only [Option.map_some', Option.some_inj] at hl
    subst hl
    obtain ⟨hlt, hp⟩ := firstIdx_some _ nodes i (dummyNode O) hfi
    simp only [decide_eq_true_eq] at hp
    refine ⟨by omega, by omega, ?_⟩
    rw [getNode_in O nodes (i + 1) (by omega) (by omega)]
    simp only [Nat.add_sub_cancel]
    rw [List.getD_eq_getElem _ _ hlt] at hp
    exact hp

theorem firstIdx_st_nodup {sigma : Type} [DecidableEq sigma]
    (nodes : List (MNode sigma)) (hnd : (stsOf nodes).Nodup) (i : Nat)
    (hi : i < nodes.length) :
    firstIdx (fun nd => decide (nd.st = nodes[i].st)) nodes = some i := by
  induction nodes generalizing i with
  | nil => simp at hi
  | cons a tl ih =>
    rw [stsOf, List.map_cons, List.nodup_cons] at hnd
    cases i with
    | zero => simp [firstIdx]
    | succ i =>
      have hi' : i < tl.length := by simpa using hi
      have hne : (a.st = tl[i].st) = False := by
        simp only [eq_iff_iff, iff_false]
        intro hcontra
        apply hnd.1
        rw [hcontra]
        exact List.mem_map_of_mem _ (List.getElem_mem _)
      rw [firstIdx]
      simp only [List.getElem_cons_succ]
      rw [if_neg (by simp [hne])]
      rw [ih hnd.2 i hi']
      rfl

theorem lookupH_get_self {sigma : Type} [DecidableEq sigma] (O : Oracle sigma)
    (nodes : List (MNode sigma)) (hnd : (stsOf nodes).Nodup) (h : Nat)
    (h1 : 1 ≤ h) (h2 : h ≤ nodes.length) :
    lookupH nodes ((getNode O nodes h).st) = some h := by
  rw [getNode_in O nodes h h1 h2, lookupH,
    firstIdx_st_nodup nodes hnd (h - 1) (by omega)]
  simp only [Option.map_some', Option.some_inj]
  omega

/-- Two storages agree on length and on the state / neighbor-row / cached-value
fields of every handle (the fields the structural invariants read). -/
structure TreeEqv {sigma : Type} (O : Oracle sigma) (a b : List (MNode sigma)) : Prop where
  len : a.length = b.length
  stEq : ∀ h, (getNode O a h).st = (getNode O b h).st
  nbsEq : ∀ h, (getNode O a h).nbs = (getNode O b h).nbs
  valEq : ∀ h, (getNode O a h).val = (getNode O b h).val

theorem TreeEqv.refl {sigma : Type} (O : Oracle sigma) (a : List (MNode sigma)) :
    TreeEqv O a a :=
  ⟨rfl, fun _ => rfl, fun _ => rfl, fun _ => rfl⟩

theorem TreeEqv.trans {sigma : Type} {O : Oracle sigma} {a b c : List (MNode sigma)}
    (h1 : TreeEqv O a b) (h2 : TreeEqv O b c) : TreeEqv O a c :=
  ⟨h1.len.trans h2.len, fun h => (h1.stEq h).trans (h2.stEq h),
   fun h => (h1.nbsEq h).trans (h2.nbsEq h), fun h => (h1.valEq h).trans (h2.valEq h)⟩

theorem stsOf_eq_of_treeEqv {sigma : Type} {O : Oracle sigma}
    {a b : List (MNode sigma)} (he : TreeEqv O a b) : stsOf a = stsOf b := by
  apply List.ext_get (by simp [stsOf, he.len])
  intro n h1 h2
  simp only [stsOf, List.get_eq_getElem, List.getElem_map]
  have ha := he.stEq (n + 1)
  rw [getNode_in O a (n + 1) (by omega) (by simp [stsOf] at h1; omega),
    getNode_in O b (n + 1) (by omega) (by simp [stsOf] at h2; omega)] at ha
  simpa using ha

theorem updNode_length {sigma : Type} (O : Oracle sigma) (nodes : List (MNode sigma))
    (h : Nat) (f : MNode sigma → MNode sigma) :
    (updNode O nodes h f).length = nodes.length := by
  rw [updNode]
  by_cases h0 : h = 0
  · rw [if_pos h0]
  · rw [if_neg h0, List.length_set]

theorem getNode_updNode_ne {sigma : Type} (O : Oracle sigma)
    (nodes : List (MNode sigma)) (h : Nat) (f : MNode sigma → MNode sigma)
    (g : Nat) (hne : g ≠ h) : getNode O (updNode O nodes h f) g = getNode O nodes g := by
  rw [updNode]
  by_cases h0 : h = 0
  · rw [if_pos h0]
  · rw [if_neg h0]
    by_cases hg0 : g = 0
    · subst hg0; simp [getNode]
    · simp only [getNode, if_neg hg0]
      by_cases hglt : g - 1 < nodes.length
      · rw [List.getD_eq_getElem _ _ (by rw [List.length_set]; exact hglt),
          List.getD_eq_getElem _ _ hglt]
        exact List.getElem_set_ne (i := h - 1) (j := g - 1) (by omega) _
      · rw [List.getD_eq_default _ _ (by rw [List.length_set]; omega),
          List.getD_eq_default _ _ (by omega)]

theorem getNode_updNode_self {sigma : Type} (O : Oracle sigma)
    (nodes : List (MNode sigma)) (h : Nat) (f : MNode sigma → MNode sigma)
    (h1 : 1 ≤ h) (h2 : h ≤ nodes.length) :
    getNode O (updNode O nodes h f) h = f (getNode O nodes h) := by
  rw [updNode, if_neg (by omega), getNode, if_neg (by omega)]
  rw [List.getD_eq_getElem _ _ (by rw [List.length_set]; omega)]
  exact List.getElem_set_self _

theorem updNode_mem {sigma : Type} (O : Oracle sigma) (nodes : List (MNode sigma))
    (h : Nat) (f : MNode sigma → MNode sigma) (nd : MNode sigma)
    (hmem : nd ∈ updNode O nodes h f) : nd ∈ nodes ∨ ∃ m ∈ nodes, nd = f m := by
  rw [updNode] at hmem
  by_cases h0 : h = 0
  · rw [if_pos h0] at hmem
    exact Or.inl hmem
  · rw [if_neg h0] at hmem
    by_cases hrange : h ≤ nodes.length
    · rcases List.mem_or_eq_of_mem_set hmem with hm | hm
      · exact Or.inl hm
      · exact Or.inr ⟨getNode O nodes h, getNode_mem O nodes h (by omega) hrange, hm⟩
    · rw [List.set_eq_of_length_le (by omega)] at hmem
      exact Or.inl hmem

theorem updNode_out {sigma : Type} (O : Oracle sigma) (nodes : List (MNode sigma))
    (h : Nat) (f : MNode sigma → MNode sigma) (hout : h = 0 ∨ nodes.length < h) :
    updNode O nodes h f = nodes := by
  rcases hout with rfl | hlt
  · rw [updNode, if_pos rfl]
  · rw [updNode, if_neg (by omega), List.set_eq_of_length_le (by omega)]

theorem bumpVis_getNode {sigma : Type} (O : Oracle sigma) :
    ∀ (path : List (Nat × Nat)) (nodes : List (MNode sigma)),
    (bumpVis O nodes path).length = nodes.length ∧
    ∀ h, (getNode O (bumpVis O nodes path) h).st = (getNode O nodes h).st ∧
      (getNode O (bumpVis O nodes path) h).nbs = (getNode O nodes h).nbs ∧
      (getNode O (bumpVis O nodes path) h).val = (getNode O nodes h).val ∧
      (getNode O (bumpVis O nodes path) h).pol = (getNode O nodes h).pol ∧
      (getNode O (bumpVis O nodes path) h).w = (getNode O nodes h).w ∧
      (getNode O (bumpVis O nodes path) h).vis.length
        = (getNode O nodes h).vis.length := by
  intro path
  induction path with
  | nil => intro nodes; exact ⟨rfl, fun h => ⟨rfl, rfl, rfl, rfl, rfl, rfl⟩⟩
  | cons hj rest ih =>
    intro nodes
    have hstep : bumpVis O nodes (hj :: rest)
        = bumpVis O
            (updNode O nodes hj.1
              (fun nd => { nd with vis := nd.vis.set hj.2 (nd.vis.getD hj.2 0 + 1) }))
            rest := by
      rw [bumpVis, List.foldl_cons]
      rfl
    set f : MNode sigma → MNode sigma :=
      fun nd => { nd with vis := nd.vis.set hj.2 (nd.vis.getD hj.2 0 + 1) } with hf
    have hone : (updNode O nodes hj.1 f).length = nodes.length ∧
        ∀ h, (getNode O (updNode O nodes hj.1 f) h).st = (getNode O nodes h).st ∧
          (getNode O (updNode O nodes hj.1 f) h).nbs = (getNode O nodes h).nbs ∧
          (getNode O (updNode O nodes hj.1 f) h).val = (getNode O nodes h).val ∧
          (getNode O (updNode O nodes hj.1 f) h).pol = (getNode O nodes h).pol ∧
          (getNode O (updNode O nodes hj.1 f) h).w = (getNode O nodes h).w ∧
          (getNode O (updNode O nodes hj.1 f) h).vis.length
            = (getNode O nodes h).vis.length := by
      refine ⟨updNode_length O nodes hj.1 f, ?_⟩
      intro h
      by_cases hhj : h = hj.1
      · rw [hhj]
        by_cases hin : 1 ≤ hj.1 ∧ hj.1 ≤ nodes.length
        · rw [getNode_updNode_self O nodes hj.1 f hin.1 hin.2]
          refine ⟨rfl, rfl, rfl, rfl, rfl, ?_⟩
          rw [hf]
          exact List.length_set _ _ _
        · rw [updNode_out O nodes hj.1 f (by omega)]
          exact ⟨rfl, rfl, rfl, rfl, rfl, rfl⟩
      · rw [getNode_updNode_ne O nodes hj.1 f h hhj]
        exact ⟨rfl, rfl, rfl, rfl, rfl, rfl⟩
    obtain ⟨ihl, ihf⟩ := ih (updNode O nodes hj.1 f)
    rw [hstep]
    constructor
    · rw [ihl, hone.1]
    · intro h
      obtain ⟨a1, a2, a3, a4, a5, a6⟩ := ihf h
      obtain ⟨b1, b2, b3, b4, b5, b6⟩ := hone.2 h
      exact ⟨a1.trans b1, a2.trans b2, a3.trans b3, a4.trans b4, a5.trans b5,
        a6.trans b6⟩

theorem bumpVis_treeEqv {sigma : Type} (O : Oracle sigma) (path : List (Nat × Nat))
    (nodes : List (MNode sigma)) : TreeEqv O (bumpVis O nodes path) nodes := by
  obtain ⟨hl, hf⟩ := bumpVis_getNode O path nodes
  exact ⟨hl, fun h => (hf h).1, fun h => (hf h).2.1, fun h => (hf h).2.2.1⟩

theorem sweepW_length {sigma : Type} (O : Oracle sigma) (nodes : List (MNode sigma)) :
    (sweepW O nodes).length = nodes.length := by
  rw [sweepW, List.length_map]

theorem getNode_sweep_in {sigma : Type} (O : Oracle sigma) (nodes : List (MNode sigma))
    (h : Nat) (h1 : 1 ≤ h) (h2 : h ≤ nodes.length) :
    getNode O (sweepW O nodes) h
      = { getNode O nodes h with w := wRule O nodes (getNode O nodes h) } := by
  rw [getNode_in O _ h h1 (by rw [sweepW_length]; exact h2),
    getNode_in O nodes h h1 h2]
  simp only [sweepW]
  exact List.getElem_map _

theorem getNode_sweep_out {sigma : Type} (O : Oracle sigma) (nodes : List (MNode sigma))
    (h : Nat) (hout : h = 0 ∨ nodes.length < h) :
    getNode O (sweepW O nodes) h = getNode O nodes h := by
  rcases hout with rfl | hlt
  · rw [getNode, getNode]
    simp
  · rw [getNode, if_neg (by omega), getNode, if_neg (by omega),
      List.getD_eq_default _ _ (by rw [sweepW_length]; omega),
      List.getD_eq_default _ _ (by omega)]

theorem sweepW_treeEqv {sigma : Type} (O : Oracle sigma) (nodes : List (MNode sigma)) :
    TreeEqv O (sweepW O nodes) nodes := by
  refine ⟨sweepW_length O nodes, ?_, ?_, ?_⟩ <;> intro h <;>
    rcases Nat.eq_zero_or_pos h with rfl | h1
  · rw [getNode_sweep_out O nodes 0 (Or.inl rfl)]
  · by_cases h2 : h ≤ nodes.length
    · rw [getNode_sweep_in O nodes h h1 h2]
    · rw [getNode_sweep_out O nodes h (Or.inr (by omega))]
  · rw [getNode_sweep_out O nodes 0 (Or.inl rfl)]
  · by_cases h2 : h ≤ nodes.length
    · rw [getNode_sweep_in O nodes h h1 h2]
    · rw [getNode_sweep_out O nodes h (Or.inr (by omega))]
  · rw [getNode_sweep_out O nodes 0 (Or.inl rfl)]
  · by_cases h2 : h ≤ nodes.length
    · rw [getNode_sweep_in O nodes h h1 h2]
    · rw [getNode_sweep_out O nodes h (Or.inr (by omega))]

theorem wRule_congr {sigma : Type} (O : Oracle sigma) {a b : List (MNode sigma)}
    (he : TreeEqv O a b) (ndA ndB : MNode sigma) (hnd : ndA.nbs = ndB.nbs) :
    wRule O a ndA = wRule O b ndB := by
  rw [wRule, wRule, hnd]
  apply List.map_congr_left
  intro c _
  have hfe : fullyExp O a c = fullyExp O b c := by
    rw [fullyExp, fullyExp, he.nbsEq c]
  have hmg : maxGrand O a c = maxGrand O b c := by
    rw [maxGrand, maxGrand, he.nbsEq c]
    congr 1
    apply List.map_congr_left
    intro g _
    rw [he.valEq g]
  rw [hfe, hmg]

theorem internState_spec {sigma : Type} [DecidableEq sigma] (O : Oracle sigma)
    (nodes : List (MNode sigma)) (s : sigma) :
    nodes <+: (internState O nodes s).1 ∧
    1 ≤ (internState O nodes s).2 ∧
    (internState O nodes s).2 ≤ (internState O nodes s).1.length ∧
    (getNode O (internState O nodes s).1 (internState O nodes s).2).st = s ∧
    ((stsOf nodes).Nodup → (stsOf (internState O nodes s).1).Nodup) ∧
    (∀ x ∈ stsOf (internState O nodes s).1, x ∈ stsOf nodes ∨ x = s) ∧
    (∀ nd ∈ (internState O nodes s).1, nd ∈ nodes ∨ nd = freshNode O s) := by
  rw [internState]
  rcases hl : lookupH nodes s with _ | h
  · simp only
    have hnotin : s ∉ stsOf nodes := by
      intro hmem
      have := (lookupH_isSome_iff nodes s).mpr hmem
      rw [hl] at this
      simp at this
    refine ⟨List.prefix_append _ _, by omega, by simp, ?_, ?_, ?_, ?_⟩
    · rw [getNode, if_neg (by omega)]
      simp only [Nat.add_sub_cancel]
      rw [List.getD_eq_getElem _ _ (by simp)]
      rw [List.getElem_concat_length nodes _ nodes.length rfl]
      rfl
    · intro hnd
      rw [stsOf, List.map_append]
      rw [List.nodup_append]
      refine ⟨hnd, by simp [freshNode], ?_⟩
      intro x hx hx2
      simp only [List.map_cons, List.map_nil, List.mem_singleton, freshNode] at hx2
      subst hx2
      exact hnotin hx
    · intro x hx
      rw [stsOf, List.map_append] at hx
      rcases List.mem_append.mp hx with hx | hx
      · exact Or.inl hx
      · simp only [List.map_cons, List.map_nil, List.mem_singleton, freshNode] at hx
        exact Or.inr hx
    · intro nd hnd
      rcases List.mem_append.mp hnd with hnd | hnd
      · exact Or.inl hnd
      · simp only [List.mem_singleton] at hnd
        exact Or.inr hnd
  · simp only
    obtain ⟨h1, h2, h3⟩ := lookupH_some O nodes s h hl
    exact ⟨List.prefix_refl _, h1, h2, h3, fun hnd => hnd, fun x hx => Or.inl hx,
      fun nd hnd => Or.inl hnd⟩

theorem internChildren_spec {sigma : Type} [DecidableEq sigma] (O : Oracle sigma) :
    ∀ (cs : List sigma) (nodes : List (MNode sigma)),
    nodes <+: (internChildren O nodes cs).1 ∧
    (internChildren O nodes cs).2.length = cs.length ∧
    ((stsOf nodes).Nodup → (stsOf (internChildren O nodes cs).1).Nodup) ∧
    (∀ x ∈ stsOf (internChildren O nodes cs).1, x ∈ stsOf nodes ∨ x ∈ cs) ∧
    (∀ nd ∈ (internChildren O nodes cs).1, nd ∈ nodes ∨ ∃ c ∈ cs, nd = freshNode O c) ∧
    (∀ k, k < cs.length →
      1 ≤ (internChildren O nodes cs).2.getD k 0 ∧
      (internChildren O nodes cs).2.getD k 0 ≤ (internChildren O nodes cs).1.length ∧
      (getNode O (internChildren O nodes cs).1 ((internChildren O nodes cs).2.getD k 0)).st
        = cs.getD k O.solved) := by
  intro cs
  induction cs with
  | nil =>
    intro nodes
    rw [internChildren]
    exact ⟨List.prefix_refl _, rfl, fun hnd => hnd, fun x hx => Or.inl hx,
      fun nd hnd => Or.inl hnd, fun k hk => by simp at hk⟩
  | cons c rest ih =>
    intro nodes
    obtain ⟨s1, s2, s3, s4, s5, s6, s7⟩ := internState_spec O nodes c
    obtain ⟨i1, i2, i3, i4, i5, i6⟩ := ih (internState O nodes c).1
    have hstep : internChildren O nodes (c :: rest)
        = ((internChildren O (internState O nodes c).1 rest).1,
           (internState O nodes c).2 :: (internChildren O (internState O nodes c).1 rest).2) := by
      rw [internChildren]
    rw [hstep]
    simp only
    refine ⟨s1.trans i1, by simp [i2], ?_, ?_, ?_, ?_⟩
    · intro hnd
      exact i3 (s5 hnd)
    · intro x hx
      rcases i4 x hx with hx2 | hx2
      · rcases s6 x hx2 with hx3 | hx3
        · exact Or.inl hx3
        · exact Or.inr (by rw [hx3]; exact List.mem_cons_self c rest)
      · exact Or.inr (List.mem_cons_of_mem c hx2)
    · intro nd hnd
      rcases i5 nd hnd with hnd2 | hnd2
      · rcases s7 nd hnd2 with hnd3 | hnd3
        · exact Or.inl hnd3
        · exact Or.inr ⟨c, List.mem_cons_self c rest, hnd3⟩
      · obtain ⟨c2, hc2, hc3⟩ := hnd2
        exact Or.inr ⟨c2, List.mem_cons_of_mem c hc2, hc3⟩
    · intro k hk
      cases k with
      | zero =>
        simp only [List.getD_cons_zero, List.getD_cons_zero]
        refine ⟨s2, le_trans s3 i1.length_le, ?_⟩
        rw [getNode_of_isPre O i1 (internState O nodes c).2 s3]
        exact s4
      | succ k =>
        have hk' : k < rest.length := by simpa using hk
        obtain ⟨k1, k2, k3⟩ := i6 k hk'
        simp only [List.getD_cons_succ]
        exact ⟨k1, k2, k3⟩

/-- The recorded selection path descends the tree: each traversed pair holds the
current handle and a legal action taken at a non-leaf node, ending at the leaf. -/
def ChainP {sigma : Type} (O : Oracle sigma) (nodes : List (MNode sigma)) :
    Nat → List (Nat × Nat) → Nat → Prop
  | h, [], L => h = L
  | h, (g, j) :: rest, L =>
      g = h ∧ j < 12 ∧ isLeafN (getNode O nodes h) = false ∧
      ChainP O nodes ((getNode O nodes h).nbs.getD j 0) rest L

theorem selPath_chain {sigma : Type} (O : Oracle sigma) (nodes : List (MNode sigma)) :
    ∀ (fuel h : Nat) (acc p : List (Nat × Nat)) (L : Nat),
    selPath O nodes fuel h acc = some (p, L) →
    ∃ q, p = acc ++ q ∧ ChainP O nodes h q L := by
  intro fuel
  induction fuel with
  | zero => intro h acc p L hsel; simp [selPath] at hsel
  | succ fuel ih =>
    intro h acc p L hsel
    rw [selPath] at hsel
    by_cases hleaf : isLeafN (getNode O nodes h)
    · rw [if_pos hleaf] at hsel
      simp only [Option.some_inj, Prod.mk.injEq] at hsel
      refine ⟨[], by simp [hsel.1.symm], ?_⟩
      rw [ChainP]
      exact hsel.2
    · rw [if_neg hleaf] at hsel
      obtain ⟨q, hq, hchain⟩ := ih _ _ p L hsel
      set j := argmaxZ ((List.range 12).map (scoreOf O (getNode O nodes h))) with hj
      have hjlt : j < 12 := by
        have hne : (List.range 12).map (scoreOf O (getNode O nodes h)) ≠ [] := by simp
        have := (argmaxZ_spec _ hne).1
        simpa using this
      refine ⟨(h, j) :: q, by simpa using hq, ?_⟩
      rw [ChainP]
      exact ⟨rfl, hjlt, by simpa using hleaf, hchain⟩

theorem isLeaf_false_ne_zero {sigma : Type} (nd : MNode sigma)
    (hleaf : isLeafN nd = false) : ∀ x ∈ nd.nbs, x ≠ 0 := by
  intro x hx
  rw [isLeafN] at hleaf
  intro hx0
  have : nd.nbs.any (fun x => decide (x = 0)) = true :=
    List.any_eq_true.mpr ⟨x, hx, by simp [hx0]⟩
  rw [this] at hleaf
  exact Bool.true_eq_false.mp hleaf

/-- Field-length well-formedness of the tree storage: each stored node has 12-entry
neighbor, policy, visit and backed-up-value rows. -/
def Lens {sigma : Type} (nodes : List (MNode sigma)) : Prop :=
  ∀ nd ∈ nodes, nd.nbs.length = 12 ∧ nd.pol.length = 12 ∧ nd.vis.length = 12 ∧
    nd.w.length = 12

/-- The structural invariants of one MCTS search session (spec 3, spec 8), carried by
every reachable engine state. -/
structure MInv {sigma : Type} [DecidableEq sigma] (O : Oracle sigma) (root : sigma)
    (s : SState sigma) : Prop where
  ne : s.nodes ≠ []
  rootSt : (getNode O s.nodes 1).st = root
  nodup : (stsOf s.nodes).Nodup
  lens : Lens s.nodes
  nbOk : ∀ h, 1 ≤ h → h ≤ s.nodes.length → ∀ j, j < 12 →
    (getNode O s.nodes h).nbs.getD j 0 ≠ 0 →
    1 ≤ (getNode O s.nodes h).nbs.getD j 0 ∧
    (getNode O s.nodes h).nbs.getD j 0 ≤ s.nodes.length ∧
    (getNode O s.nodes ((getNode O s.nodes h).nbs.getD j 0)).st
      = O.rotate (getNode O s.nodes h).st j
  wOk : ∀ h, 1 ≤ h → h ≤ s.nodes.length →
    (getNode O s.nodes h).w = wRule O s.nodes (getNode O s.nodes h)
  solvedIn : searchBool s = true → O.solved ∈ stsOf s.nodes
  solvedOut : searchBool s = false → O.solved ∉ stsOf s.nodes
  pathOk : ∀ q, s.res = some (true, q) → List.foldl O.rotate root q = O.solved

theorem chain_foldl {sigma : Type} [DecidableEq sigma] (O : Oracle sigma) (root : sigma)
    (s : SState sigma) (inv : MInv O root s) :
    ∀ (q : List (Nat × Nat)) (h L : Nat), 1 ≤ h → h ≤ s.nodes.length →
    ChainP O s.nodes h q L →
    List.foldl O.rotate (getNode O s.nodes h).st (q.map Prod.snd)
      = (getNode O s.nodes L).st ∧ 1 ≤ L ∧ L ≤ s.nodes.length := by
  intro q
  induction q with
  | nil =>
    intro h L h1 h2 hchain
    rw [ChainP] at hchain
    subst hchain
    exact ⟨rfl, h1, h2⟩
  | cons gj rest ih =>
    intro h L h1 h2 hchain
    obtain ⟨g, j⟩ := gj
    rw [ChainP] at hchain
    obtain ⟨hg, hjlt, hleaf, hchain⟩ := hchain
    have hlen : (getNode O s.nodes h).nbs.length = 12 :=
      (inv.lens _ (getNode_mem O s.nodes h h1 h2)).1
    have hmem : (getNode O s.nodes h).nbs.getD j 0 ∈ (getNode O s.nodes h).nbs := by
      rw [List.getD_eq_getElem _ _ (by omega)]
      exact List.getElem_mem _
    have hne0 : (getNode O s.nodes h).nbs.getD j 0 ≠ 0 :=
      isLeaf_false_ne_zero _ hleaf _ hmem
    obtain ⟨c1, c2, c3⟩ := inv.nbOk h h1 h2 j hjlt hne0
    obtain ⟨ih1, ih2, ih3⟩ := ih _ L c1 c2 hchain
    refine ⟨?_, ih2, ih3⟩
    simp only [List.map_cons, List.foldl_cons]
    rw [← ih1, c3]

theorem lens_bumpVis {sigma : Type} (O : Oracle sigma) :
    ∀ (path : List (Nat × Nat)) (nodes : List (MNode sigma)),
    Lens nodes → Lens (bumpVis O nodes path) := by
  intro path
  induction path with
  | nil => intro nodes hl; exact hl
  | cons hj rest ih =>
    intro nodes hl
    have hstep : bumpVis O nodes (hj :: rest)
        = bumpVis O
            (updNode O nodes hj.1
              (fun nd => { nd with vis := nd.vis.set hj.2 (nd.vis.getD hj.2 0 + 1) }))
            rest := by
      rw [bumpVis, List.foldl_cons]
      rfl
    rw [hstep]
    apply ih
    intro nd hnd
    rcases updNode_mem O nodes hj.1 _ nd hnd with hm | ⟨m, hm, rfl⟩
    · exact hl nd hm
    · obtain ⟨m1, m2, m3, m4⟩ := hl m hm
      exact ⟨m1, m2, by simpa using m3, m4⟩

theorem stsOf_updNode {sigma : Type} (O : Oracle sigma) (nodes : List (MNode sigma))
    (h : Nat) (f : MNode sigma → MNode sigma) (hfst : ∀ nd, (f nd).st = nd.st) :
    stsOf (updNode O nodes h f) = stsOf nodes := by
  rw [updNode]
  by_cases h0 : h = 0
  · rw [if_pos h0]
  · rw [if_neg h0]
    by_cases hrange : h - 1 < nodes.length
    · rw [stsOf, List.map_set]
      refine set_getElem_self _ _ _ (by simpa using hrange) ?_
      rw [hfst, getNode, if_neg h0, List.getD_eq_getElem _ _ hrange]
      simp [stsOf]
    · rw [List.set_eq_of_length_le (by omega)]

theorem getNode_updRow {sigma : Type} (O : Oracle sigma) (nodes : List (MNode sigma))
    (h : Nat) (row : List Nat) (g : Nat) :
    ((getNode O (updNode O nodes h (fun nd => { nd with nbs := row })) g).st
        = (getNode O nodes g).st ∧
      (getNode O (updNode O nodes h (fun nd => { nd with nbs := row })) g).val
        = (getNode O nodes g).val ∧
      (getNode O (updNode O nodes h (fun nd => { nd with nbs := row })) g).pol
        = (getNode O nodes g).pol ∧
      (getNode O (updNode O nodes h (fun nd => { nd with nbs := row })) g).vis
        = (getNode O nodes g).vis ∧
      (getNode O (updNode O nodes h (fun nd => { nd with nbs := row })) g).w
        = (getNode O nodes g).w) ∧
    (g ≠ h →
      (getNode O (updNode O nodes h (fun nd => { nd with nbs := row })) g).nbs
        = (getNode O nodes g).nbs) ∧
    (g = h → 1 ≤ h → h ≤ nodes.length →
      (getNode O (updNode O nodes h (fun nd => { nd with nbs := row })) g).nbs = row) := by
  by_cases hgh : g = h
  · subst hgh
    by_cases hin : 1 ≤ g ∧ g ≤ nodes.length
    · rw [getNode_updNode_self O nodes g _ hin.1 hin.2]
      exact ⟨⟨rfl, rfl, rfl, rfl, rfl⟩, fun hne => absurd rfl hne, fun _ _ _ => rfl⟩
    · rw [updNode_out O nodes g _ (by omega)]
      exact ⟨⟨rfl, rfl, rfl, rfl, rfl⟩, fun hne => absurd rfl hne,
        fun _ h1 h2 => by omega⟩
  · rw [getNode_updNode_ne O nodes h _ g hgh]
    exact ⟨⟨rfl, rfl, rfl, rfl, rfl⟩, fun _ => rfl, fun heq => absurd heq hgh⟩

theorem internState_fresh {sigma : Type} [DecidableEq sigma] (O : Oracle sigma)
    (nodes : List (MNode sigma)) (s : sigma) :
    ∀ h, nodes.length < h → h ≤ (internState O nodes s).1.length →
      getNode O (internState O nodes s).1 h = freshNode O s := by
  intro h hlo hhi
  rw [internState] at hhi ⊢
  rcases hl : lookupH nodes s with _ | g
  · rw [hl] at hhi
    simp only [List.length_append, List.length_singleton] at hhi
    have hh : h = nodes.length + 1 := by omega
    subst hh
    rw [getNode, if_neg (by omega)]
    simp only [Nat.add_sub_cancel]
    rw [List.getD_eq_getElem _ _ (by simp)]
    exact List.getElem_concat_length nodes _ nodes.length rfl _
  · rw [hl] at hhi
    simp only at hhi
    omega

theorem internChildren_fresh {sigma : Type} [DecidableEq sigma] (O : Oracle sigma) :
    ∀ (cs : List sigma) (nodes : List (MNode sigma)) (h : Nat),
    nodes.length < h → h ≤ (internChildren O nodes cs).1.length →
    ∃ c ∈ cs, getNode O (internChildren O nodes cs).1 h = freshNode O c := by
  intro cs
  induction cs with
  | nil =>
    intro nodes h hlo hhi
    have hlen : (internChildren O nodes ([] : List sigma)).1 = nodes := by
      rw [internChildren]
    rw [hlen] at hhi
    omega
  | cons c rest ih =>
    intro nodes h hlo hhi
    have hstep : (internChildren O nodes (c :: rest)).1
        = (internChildren O (internState O nodes c).1 rest).1 := by
      rw [internChildren]
    rw [hstep] at hhi ⊢
    by_cases hmid : h ≤ (internState O nodes c).1.length
    · obtain ⟨i1, _, _, _, _, _⟩ := internChildren_spec O rest (internState O nodes c).1
      rw [getNode_of_isPre O i1 h hmid]
      exact ⟨c, List.mem_cons_self c rest,
        internState_fresh O nodes c h hlo hmid⟩
    · obtain ⟨c2, hc2, hc3⟩ := ih (internState O nodes c).1 h (by omega) hhi
      exact ⟨c2, List.mem_cons_of_mem c hc2, hc3⟩

theorem lens_internChildren {sigma : Type} [DecidableEq sigma] (O : Oracle sigma)
    (cs : List sigma) (nodes : List (MNode sigma)) (hl : Lens nodes) :
    Lens (internChildren O nodes cs).1 := by
  intro nd hnd
  obtain ⟨_, _, _, _, i5, _⟩ := internChildren_spec O cs nodes
  rcases i5 nd hnd with hm | ⟨c, _, rfl⟩
  · exact hl nd hm
  · simp [freshNode]

theorem expCs_length {sigma : Type} (O : Oracle sigma) (s : SState sigma)
    (pl : List (Nat × Nat) × Nat) : (expCs O s pl).length = 12 := by
  rw [expCs, List.length_map, List.length_range]

theorem expCs_getD {sigma : Type} (O : Oracle sigma) (s : SState sigma)
    (pl : List (Nat × Nat) × Nat) (j : Nat) (hj : j < 12) (d : sigma) :
    (expCs O s pl).getD j d = O.rotate (getNode O (expNodes1 O s pl) pl.2).st j := by
  rw [expCs, List.getD_eq_getElem _ _ (by simpa using hj), List.getElem_map]
  simp

theorem fullyExp_zero {sigma : Type} (O : Oracle sigma) (nodes : List (MNode sigma)) :
    fullyExp O nodes 0 = false := by
  rw [fullyExp]
  simp

theorem mInv_init {sigma : Type} [DecidableEq sigma] (O : Oracle sigma) (root : sigma) :
    MInv O root (mctsInit O root) := by
  have hget : getNode O (mctsInit O root).nodes 1 = freshNode O root := by
    rw [mctsInit, getNode, if_neg (by omega)]
    simp
  refine ⟨by rw [mctsInit]; simp, by rw [hget]; rfl, by rw [mctsInit, stsOf]; simp,
    ?_, ?_, ?_, ?_, ?_, ?_⟩
  · intro nd hnd
    rw [mctsInit] at hnd
    simp only [List.mem_singleton] at hnd
    subst hnd
    simp [freshNode]
  · intro h h1 h2 j hj hne
    rw [mctsInit] at h2
    simp only [List.length_singleton] at h2
    have hh : h = 1 := by omega
    subst hh
    rw [hget] at hne
    exfalso
    apply hne
    show (freshNode O root).nbs.getD j 0 = 0
    rw [freshNode]
    simp only
    rw [List.getD_eq_getElem _ _ (by rw [List.length_replicate]; omega)]
    exact List.getElem_replicate _ _
  · intro h h1 h2
    rw [mctsInit] at h2
    simp only [List.length_singleton] at h2
    have hh : h = 1 := by omega
    subst hh
    rw [hget, wRule]
    rw [freshNode]
    simp only
    rw [List.map_replicate]
    congr 1
  · intro hsb
    rw [mctsInit] at hsb ⊢
    rw [searchBool] at hsb
    by_cases hs : root = O.solved
    · rw [stsOf]
      simp only [List.map_cons, List.map_nil, freshNode]
      rw [hs]
      exact List.mem_singleton_self _
    · rw [if_neg hs] at hsb
      simp at hsb
  · intro hsb
    rw [mctsInit, stsOf]
    simp only [List.map_cons, List.map_nil, freshNode, List.mem_singleton]
    intro hcontra
    rw [mctsInit, searchBool] at hsb
    rw [if_pos hcontra.symm] at hsb
    simp at hsb
  · intro q hq
    rw [mctsInit] at hq
    by_cases hs : root = O.solved
    · rw [if_pos hs] at hq
      simp only [Option.some_inj, Prod.mk.injEq] at hq
      rw [← hq.2]
      simpa using hs
    · rw [if_neg hs] at hq
      simp at hq

theorem mctsStep_isSome {sigma : Type} [DecidableEq sigma] (O : Oracle sigma)
    (maxN : Option Nat) (s : SState sigma) (h : s.res.isSome = true) :
    mctsStep O maxN s = s := by
  rw [mctsStep, if_pos h]

theorem mctsStep_budget {sigma : Type} [DecidableEq sigma] (O : Oracle sigma)
    (maxN : Option Nat) (s : SState sigma) (h : s.res.isSome = false)
    (hb : budgetHit maxN s.nodes.length = true) :
    mctsStep O maxN s = { s with res := some (false, []) } := by
  rw [mctsStep, if_neg (by simp [h]), if_pos hb]

theorem mctsStep_selNone {sigma : Type} [DecidableEq sigma] (O : Oracle sigma)
    (maxN : Option Nat) (s : SState sigma) (h : s.res.isSome = false)
    (hb : budgetHit maxN s.nodes.length = false)
    (hsel : selPath O s.nodes (s.nodes.length + 1) 1 [] = none) :
    mctsStep O maxN s = s := by
  rw [mctsStep, if_neg (by simp [h]), if_neg (by simp [hb]), hsel]

theorem mctsStep_expand {sigma : Type} [DecidableEq sigma] (O : Oracle sigma)
    (maxN : Option Nat) (s : SState sigma) (h : s.res.isSome = false)
    (hb : budgetHit maxN s.nodes.length = false)
    (pl : List (Nat × Nat) × Nat)
    (hsel : selPath O s.nodes (s.nodes.length + 1) 1 [] = some pl) :
    mctsStep O maxN s = mctsExpand O s pl := by
  rw [mctsStep, if_neg (by simp [h]), if_neg (by simp [hb]), hsel]

theorem mInv_expand {sigma : Type} [DecidableEq sigma] (O : Oracle sigma) (root : sigma)
    (s : SState sigma) (inv : MInv O root s) (hres : s.res = none)
    (pl : List (Nat × Nat) × Nat)
    (hsel : selPath O s.nodes (s.nodes.length + 1) 1 [] = some pl) :
    MInv O root (mctsExpand O s pl) := by
  have hlen0 : 1 ≤ s.nodes.length := by
    have := List.length_pos.mpr inv.ne
    omega
  obtain ⟨q, hq, hchain⟩ := selPath_chain O s.nodes (s.nodes.length + 1) 1 [] pl.1 pl.2
    (by rw [hsel])
  rw [List.nil_append] at hq
  rw [← hq] at hchain
  obtain ⟨hfold, hL1, hL2⟩ := chain_foldl O root s inv pl.1 1 pl.2 le_rfl hlen0 hchain
  -- the four storage stages of the iteration
  have hT1 : TreeEqv O (expNodes1 O s pl) s.nodes := bumpVis_treeEqv O pl.1 s.nodes
  have hsts1 : stsOf (expNodes1 O s pl) = stsOf s.nodes := stsOf_eq_of_treeEqv hT1
  have hlen1 : (expNodes1 O s pl).length = s.nodes.length := hT1.len
  have hLens1 : Lens (expNodes1 O s pl) := lens_bumpVis O pl.1 s.nodes inv.lens
  obtain ⟨i1, i2, i3, i4, i5, i6⟩ := internChildren_spec O (expCs O s pl) (expNodes1 O s pl)
  have hpr : internChildren O (expNodes1 O s pl) (expCs O s pl) = expPr O s pl := rfl
  rw [hpr] at i1 i2 i3 i4 i5 i6
  have hprlen : s.nodes.length ≤ (expPr O s pl).1.length := by
    have := i1.length_le
    omega
  have hLensPr : Lens (expPr O s pl).1 := lens_internChildren O _ _ hLens1
  set N2 : List (MNode sigma) :=
    updNode O (expPr O s pl).1 pl.2 (fun nd => { nd with nbs := (expPr O s pl).2 })
    with hN2
  have hN3 : expNodes3 O s pl = sweepW O N2 := rfl
  have hlen2 : N2.length = (expPr O s pl).1.length := updNode_length O _ _ _
  have hT3 : TreeEqv O (sweepW O N2) N2 := sweepW_treeEqv O N2
  have hlen3 : (sweepW O N2).length = N2.length := sweepW_length O N2
  have hrow := fun (g : Nat) =>
    getNode_updRow O (expPr O s pl).1 pl.2 (expPr O s pl).2 g
  have hsts2 : stsOf N2 = stsOf (expPr O s pl).1 :=
    stsOf_updNode O _ _ _ (fun nd => rfl)
  have hsts3 : stsOf (sweepW O N2) = stsOf N2 := stsOf_eq_of_treeEqv hT3
  have hrowlen : (expPr O s pl).2.length = 12 := by rw [i2, expCs_length]
  -- state of the leaf and children
  have hstL1 : (getNode O (expNodes1 O s pl) pl.2).st = (getNode O s.nodes pl.2).st :=
    hT1.stEq pl.2
  have hLpr : pl.2 ≤ (expPr O s pl).1.length := le_trans hL2 hprlen
  have hcsD := fun (j : Nat) (hj : j < 12) => expCs_getD O s pl j hj O.solved
  -- core structural facts about the post-iteration storage
  have hne3 : (sweepW O N2) ≠ [] := by
    apply List.ne_nil_of_length_pos
    omega
  have hst2eq : ∀ g, g ≤ s.nodes.length →
      (getNode O N2 g).st = (getNode O s.nodes g).st := by
    intro g hg
    rw [(hrow g).1.1, getNode_of_isPre O i1 g (by omega), hT1.stEq g]
  have hroot3 : (getNode O (sweepW O N2) 1).st = root := by
    rw [hT3.stEq 1, hst2eq 1 hlen0]
    exact inv.rootSt
  have hnodup3 : (stsOf (sweepW O N2)).Nodup := by
    rw [hsts3, hsts2]
    exact i3 (by rw [hsts1]; exact inv.nodup)
  have hLens2 : Lens N2 := by
    intro nd hnd
    rcases updNode_mem O _ _ _ nd hnd with hm | ⟨m, hm, rfl⟩
    · exact hLensPr nd hm
    · obtain ⟨m1, m2, m3, m4⟩ := hLensPr m hm
      exact ⟨hrowlen, m2, m3, m4⟩
  have hLens3 : Lens (sweepW O N2) := by
    intro nd hnd
    rw [sweepW] at hnd
    obtain ⟨m, hm, rfl⟩ := List.mem_map.mp hnd
    obtain ⟨m1, m2, m3, m4⟩ := hLens2 m hm
    refine ⟨m1, m2, m3, ?_⟩
    rw [wRule, List.length_map]
    exact m1
  have hnbok2 : ∀ h, 1 ≤ h → h ≤ N2.length → ∀ j, j < 12 →
      (getNode O N2 h).nbs.getD j 0 ≠ 0 →
      1 ≤ (getNode O N2 h).nbs.getD j 0 ∧
      (getNode O N2 h).nbs.getD j 0 ≤ N2.length ∧
      (getNode O N2 ((getNode O N2 h).nbs.getD j 0)).st
        = O.rotate (getNode O N2 h).st j := by
    intro h h1 h2 j hj hne
    by_cases hhL : h = pl.2
    · subst hhL
      have hrowL : (getNode O N2 pl.2).nbs = (expPr O s pl).2 :=
        (hrow pl.2).2.2 rfl hL1 hLpr
      rw [hrowL] at hne ⊢
      obtain ⟨k1, k2, k3⟩ := i6 j (by rw [expCs_length]; exact hj)
      refine ⟨k1, by omega, ?_⟩
      rw [(hrow _).1.1, k3, hcsD j hj, hstL1, ← hst2eq pl.2 hL2]
    · have hrowg : (getNode O N2 h).nbs = (getNode O (expPr O s pl).1 h).nbs :=
        (hrow h).2.1 hhL
      by_cases hold : h ≤ s.nodes.length
      · have hrow0 : (getNode O N2 h).nbs = (getNode O s.nodes h).nbs := by
          rw [hrowg, getNode_of_isPre O i1 h (by omega), hT1.nbsEq h]
        rw [hrow0] at hne ⊢
        obtain ⟨k1, k2, k3⟩ := inv.nbOk h h1 hold j hj hne
        refine ⟨k1, by omega, ?_⟩
        rw [hst2eq _ (by omega), hst2eq h hold, k3]
      · exfalso
        obtain ⟨c, hc, hcfresh⟩ := internChildren_fresh O (expCs O s pl)
          (expNodes1 O s pl) h (by omega) (by rw [hpr]; omega)
        rw [hpr] at hcfresh
        rw [hrowg, hcfresh] at hne
        apply hne
        show (freshNode O c).nbs.getD j 0 = 0
        rw [freshNode]
        simp only
        rw [List.getD_eq_getElem _ _ (by rw [List.length_replicate]; omega)]
        exact List.getElem_replicate _ _
  have hnbok3 : ∀ h, 1 ≤ h → h ≤ (sweepW O N2).length → ∀ j, j < 12 →
      (getNode O (sweepW O N2) h).nbs.getD j 0 ≠ 0 →
      1 ≤ (getNode O (sweepW O N2) h).nbs.getD j 0 ∧
      (getNode O (sweepW O N2) h).nbs.getD j 0 ≤ (sweepW O N2).length ∧
      (getNode O (sweepW O N2) ((getNode O (sweepW O N2) h).nbs.getD j 0)).st
        = O.rotate (getNode O (sweepW O N2) h).st j := by
    intro h h1 h2 j hj hne
    rw [hT3.nbsEq h] at hne ⊢
    rw [hT3.stEq, hT3.stEq]
    rw [hlen3]
    exact hnbok2 h h1 (by omega) j hj hne
  have hwok3 : ∀ h, 1 ≤ h → h ≤ (sweepW O N2).length →
      (getNode O (sweepW O N2) h).w
        = wRule O (sweepW O N2) (getNode O (sweepW O N2) h) := by
    intro h h1 h2
    have hin : h ≤ N2.length := by omega
    rw [wRule_congr O hT3 (getNode O (sweepW O N2) h) (getNode O N2 h) (hT3.nbsEq h)]
    rw [getNode_sweep_in O N2 h h1 hin]
  have hsolved0 : O.solved ∉ stsOf s.nodes := by
    apply inv.solvedOut
    rw [searchBool, hres]
  -- split on whether a child is the solved configuration
  rcases hfi : firstIdx (fun c => decide (c = O.solved)) (expCs O s pl) with _ | j
  · have hexp : mctsExpand O s pl = { nodes := expNodes3 O s pl, res := none } := by
      rw [mctsExpand, hfi]
    rw [hexp, hN3]
    have hnotin : O.solved ∉ stsOf (sweepW O N2) := by
      rw [hsts3, hsts2]
      intro hmem
      rcases i4 O.solved hmem with hm | hm
      · rw [hsts1] at hm
        exact hsolved0 hm
      · have := (firstIdx_none_iff _ _).mp hfi O.solved hm
        simp at this
    refine ⟨hne3, hroot3, hnodup3, hLens3, hnbok3, hwok3, ?_, ?_, ?_⟩
    · intro hsb
      rw [searchBool] at hsb
      simp at hsb
    · intro _
      exact hnotin
    · intro q' hq'
      simp at hq'
  · have hexp : mctsExpand O s pl
        = { nodes := expNodes3 O s pl,
            res := some (true, pl.1.map Prod.snd ++ [j]) } := by
      rw [mctsExpand, hfi]
    rw [hexp, hN3]
    obtain ⟨hjlt, hjsol⟩ := firstIdx_some _ (expCs O s pl) j O.solved hfi
    rw [expCs_length] at hjlt
    simp only [decide_eq_true_eq] at hjsol
    have hsolvedIn : O.solved ∈ stsOf (sweepW O N2) := by
      rw [hsts3, hsts2]
      obtain ⟨k1, k2, k3⟩ := i6 j (by rw [expCs_length]; exact hjlt)
      rw [hjsol] at k3
      rw [← k3]
      exact getNode_st_mem O _ _ k1 k2
    refine ⟨hne3, hroot3, hnodup3, hLens3, hnbok3, hwok3, ?_, ?_, ?_⟩
    · intro _
      exact hsolvedIn
    · intro hsb
      rw [searchBool] at hsb
      simp at hsb
    · intro q' hq'
      simp only [Option.some_inj, Prod.mk.injEq, true_and] at hq'
      rw [← hq']
      rw [List.foldl_append]
      simp only [List.foldl_cons, List.foldl_nil]
      have hroot0 : root = (getNode O s.nodes 1).st := inv.rootSt.symm
      rw [hroot0, hfold, ← hstL1, ← hcsD j hjlt, hjsol]

theorem mInv_step {sigma : Type} [DecidableEq sigma] (O : Oracle sigma) (root : sigma)
    (maxN : Option Nat) (s : SState sigma) (inv : MInv O root s) :
    MInv O root (mctsStep O maxN s) := by
  rcases hrs : s.res with _ | r
  · have hiss : s.res.isSome = false := by rw [hrs]; rfl
    by_cases hb : budgetHit maxN s.nodes.length = true
    · rw [mctsStep_budget O maxN s hiss hb]
      refine ⟨inv.ne, inv.rootSt, inv.nodup, inv.lens, inv.nbOk, inv.wOk, ?_, ?_, ?_⟩
      · intro hsb
        rw [searchBool] at hsb
        simp at hsb
      · intro _
        apply inv.solvedOut
        rw [searchBool, hrs]
      · intro q hq
        simp only [Option.some_inj, Prod.mk.injEq] at hq
        exact absurd hq.1 (by simp)
    · have hbf : budgetHit maxN s.nodes.length = false := by
        simpa using hb
      rcases hsel : selPath O s.nodes (s.nodes.length + 1) 1 [] with _ | pl
      · rw [mctsStep_selNone O maxN s hiss hbf hsel]
        exact inv
      · rw [mctsStep_expand O maxN s hiss hbf pl hsel]
        exact mInv_expand O root s inv hrs pl hsel
  · have hiss : s.res.isSome = true := by rw [hrs]; rfl
    rw [mctsStep_isSome O maxN s hiss]
    exact inv

theorem mInv_search {sigma : Type} [DecidableEq sigma] (O : Oracle sigma) (root : sigma)
    (fuel : Nat) (maxN : Option Nat) : MInv O root (mctsSearch O root fuel maxN) := by
  induction fuel with
  | zero => exact mInv_init O root
  | succ fuel ih =>
    rw [mctsSearch, Function.iterate_succ_apply']
    exact mInv_step O root maxN _ ih

theorem mctsExpand_nodes {sigma : Type} [DecidableEq sigma] (O : Oracle sigma)
    (s : SState sigma) (pl : List (Nat × Nat) × Nat) :
    (mctsExpand O s pl).nodes = expNodes3 O s pl := by
  rcases hfi : firstIdx (fun c => decide (c = O.solved)) (expCs O s pl) with _ | j <;>
    rw [mctsExpand, hfi]

theorem stsOf_step_isPre {sigma : Type} [DecidableEq sigma] (O : Oracle sigma)
    (maxN : Option Nat) (s : SState sigma) :
    stsOf s.nodes <+: stsOf (mctsStep O maxN s).nodes := by
  rcases hrs : s.res with _ | r
  · have hiss : s.res.isSome = false := by rw [hrs]; rfl
    by_cases hb : budgetHit maxN s.nodes.length = true
    · rw [mctsStep_budget O maxN s hiss hb]
    · have hbf : budgetHit maxN s.nodes.length = false := by simpa using hb
      rcases hsel : selPath O s.nodes (s.nodes.length + 1) 1 [] with _ | pl
      · rw [mctsStep_selNone O maxN s hiss hbf hsel]
      · rw [mctsStep_expand O maxN s hiss hbf pl hsel, mctsExpand_nodes]
        obtain ⟨i1, _, _, _, _, _⟩ :=
          internChildren_spec O (expCs O s pl) (expNodes1 O s pl)
        have h3 : stsOf (expNodes3 O s pl)
            = stsOf (internChildren O (expNodes1 O s pl) (expCs O s pl)).1 := by
          rw [expNodes3]
          rw [stsOf_eq_of_treeEqv (sweepW_treeEqv O _)]
          exact stsOf_updNode O _ _ _ (fun nd => rfl)
        rw [h3]
        have h1 : stsOf s.nodes = stsOf (expNodes1 O s pl) :=
          (stsOf_eq_of_treeEqv (bumpVis_treeEqv O pl.1 s.nodes)).symm
        rw [h1]
        exact i1.map MNode.st
  · have hiss : s.res.isSome = true := by rw [hrs]; rfl
    rw [mctsStep_isSome O maxN s hiss]

theorem stsOf_iterate_isPre {sigma : Type} [DecidableEq sigma] (O : Oracle sigma)
    (maxN : Option Nat) (s : SState sigma) :
    ∀ m, stsOf s.nodes <+: stsOf ((mctsStep O maxN)^[m] s).nodes := by
  intro m
  induction m with
  | zero => rfl
  | succ m ih =>
    rw [Function.iterate_succ_apply']
    exact ih.trans (stsOf_step_isPre O maxN _)

theorem drainAll_id {alpha : Type} : ∀ l : List alpha, drainAll l = l := by
  intro l
  induction l with
  | nil => rfl
  | cons a q ih => rw [drainAll, ih]

/-- Claim C1: after a completed search session, for every allocated handle and every
action, the backed-up value `W` equals the maximum of the cached values over the
child's neighbor row exactly when that child's own neighbor row is fully non-absent;
otherwise it holds the pending marker 0. -/
theorem C1_w_finalization {sigma : Type} [DecidableEq sigma] (O : Oracle sigma)
    (root : sigma) (fuel : Nat) (maxN : Option Nat) (h j : Nat) (h1 : 1 ≤ h)
    (h2 : h ≤ (mctsSearch O root fuel maxN).nodes.length) (hj : j < 12) :
    (getNode O (mctsSearch O root fuel maxN).nodes h).w.getD j 0
      = if fullyExp O (mctsSearch O root fuel maxN).nodes
            ((getNode O (mctsSearch O root fuel maxN).nodes h).nbs.getD j 0)
        then maxGrand O (mctsSearch O root fuel maxN).nodes
            ((getNode O (mctsSearch O root fuel maxN).nodes h).nbs.getD j 0)
        else 0 := by
  have inv := mInv_search O root fuel maxN
  have hlen : (getNode O (mctsSearch O root fuel maxN).nodes h).nbs.length = 12 :=
    (inv.lens _ (getNode_mem O _ h h1 h2)).1
  rw [inv.wOk h h1 h2, wRule]
  rw [List.getD_eq_getElem _ _ (by rw [List.length_map, hlen]; exact hj)]
  rw [List.getElem_map]
  rw [List.getD_eq_getElem _ _ (by rw [hlen]; exact hj)]

/-- Claim C2: the search call returns true if and only if the canonical key of the
solved configuration is present in the transposition table immediately afterwards. -/
theorem C2_search_iff_solved {sigma : Type} [DecidableEq sigma] (O : Oracle sigma)
    (root : sigma) (fuel : Nat) (maxN : Option Nat) :
    searchBool (mctsSearch O root fuel maxN) = true
      ↔ (lookupH (mctsSearch O root fuel maxN).nodes O.solved).isSome = true := by
  have inv := mInv_search O root fuel maxN
  rw [lookupH_isSome_iff]
  constructor
  · exact inv.solvedIn
  · intro hmem
    by_contra hf
    have hfalse : searchBool (mctsSearch O root fuel maxN) = false := by
      simpa using hf
    exact inv.solvedOut hfalse hmem

/-- Claim C3: the allocated handles of a completed session are exactly the contiguous
range `1..K` where `K` is the reported table size, handle 1 is the session root, and
the storage only ever grows during the session (no handle reuse). -/
theorem C3_handles_contiguous {sigma : Type} [DecidableEq sigma] (O : Oracle sigma)
    (root : sigma) (fuel : Nat) (maxN : Option Nat) :
    handleList (mctsSearch O root fuel maxN).nodes
      = List.range' 1 (tableSize (mctsSearch O root fuel maxN).nodes) ∧
    tableSize (mctsSearch O root fuel maxN).nodes
      = (mctsSearch O root fuel maxN).nodes.length ∧
    lookupH (mctsSearch O root fuel maxN).nodes root = some 1 ∧
    ∀ k, k ≤ fuel →
      stsOf ((mctsStep O maxN)^[k] (mctsInit O root)).nodes
        <+: stsOf (mctsSearch O root fuel maxN).nodes := by
  have inv := mInv_search O root fuel maxN
  have hsize : tableSize (mctsSearch O root fuel maxN).nodes
      = (mctsSearch O root fuel maxN).nodes.length := by
    rw [tableSize, inv.nodup.dedup, stsOf, List.length_map]
  refine ⟨?_, hsize, ?_, ?_⟩
  · rw [hsize]
    apply List.ext_get
    · rw [handleList, List.length_map, stsOf, List.length_map, List.length_range']
    · intro n hn1 hn2
      simp only [List.get_eq_getElem, handleList]
      rw [List.getElem_map]
      have hnlt : n < (mctsSearch O root fuel maxN).nodes.length := by
        simp only [handleList, stsOf, List.length_map] at hn1
        exact hn1
      have hsts : getElem (stsOf (mctsSearch O root fuel maxN).nodes) n
            (by simp only [stsOf, List.length_map]; exact hnlt)
          = (getElem (mctsSearch O root fuel maxN).nodes n hnlt).st := by
        simp only [stsOf]
        exact List.getElem_map _
      rw [List.getElem_range', hsts]
      simp only [lookupH]
      rw [firstIdx_st_nodup (mctsSearch O root fuel maxN).nodes inv.nodup n hnlt]
      simp only [Option.map_some', Option.getD_some]
      omega
  · have h1len : 1 ≤ (mctsSearch O root fuel maxN).nodes.length := by
      have := List.length_pos.mpr inv.ne
      omega
    have := lookupH_get_self O (mctsSearch O root fuel maxN).nodes inv.nodup 1 le_rfl h1len
    rw [inv.rootSt] at this
    exact this
  · intro k hk
    have hsplit : mctsSearch O root fuel maxN
        = (mctsStep O maxN)^[fuel - k] ((mctsStep O maxN)^[k] (mctsInit O root)) := by
      rw [mctsSearch, ← Function.iterate_add_apply]
      congr 1
      omega
    rw [hsplit]
    exact stsOf_iterate_isPre O maxN _ (fuel - k)

/-- Claim C4: for every allocated handle, serializing its stored state and looking the
canonical key up in the transposition index yields the handle back, and conversely the
state stored at an indexed handle is the keyed state (the two maps are mutually
inverse round-trips). -/
theorem C4_roundtrip {sigma : Type} [DecidableEq sigma] (O : Oracle sigma)
    (root : sigma) (fuel : Nat) (maxN : Option Nat) :
    (∀ h, 1 ≤ h → h ≤ (mctsSearch O root fuel maxN).nodes.length →
      lookupH (mctsSearch O root fuel maxN).nodes
        ((getNode O (mctsSearch O root fuel maxN).nodes h).st) = some h) ∧
    (∀ s h, lookupH (mctsSearch O root fuel maxN).nodes s = some h →
      (getNode O (mctsSearch O root fuel maxN).nodes h).st = s) := by
  have inv := mInv_search O root fuel maxN
  constructor
  · intro h h1 h2
    exact lookupH_get_self O _ inv.nodup h h1 h2
  · intro s h hl
    exact (lookupH_some O _ s h hl).2.2

/-- Claim C5: whenever the search returns true, the action queue is drained FIFO by
the caller exactly in its stored root-to-goal order, and applying the drained actions
in order to the root state reaches the solved configuration. -/
theorem C5_queue_solves {sigma : Type} [DecidableEq sigma] (O : Oracle sigma)
    (root : sigma) (fuel : Nat) (maxN : Option Nat)
    (hsb : searchBool (mctsSearch O root fuel maxN) = true) :
    drainAll (queueOf (mctsSearch O root fuel maxN))
        = queueOf (mctsSearch O root fuel maxN) ∧
    List.foldl O.rotate root (queueOf (mctsSearch O root fuel maxN)) = O.solved := by
  have inv := mInv_search O root fuel maxN
  refine ⟨drainAll_id _, ?_⟩
  rcases hrs : (mctsSearch O root fuel maxN).res with _ | r
  · rw [searchBool, hrs] at hsb
    simp at hsb
  · obtain ⟨b, qq⟩ := r
    rw [searchBool, hrs] at hsb
    have hb : b = true := hsb
    rw [queueOf, hrs]
    apply inv.pathOk
    rw [hrs, hb]

/-- Claim C6 (amended): an entry of `W` whose finalization condition fails always
holds exactly the pending marker 0; the marker is reliable in that direction only,
since a finalized entry may also legitimately compute to 0. -/
theorem C6_pending_holds_zero {sigma : Type} [DecidableEq sigma] (O : Oracle sigma)
    (root : sigma) (fuel : Nat) (maxN : Option Nat) (h j : Nat) (h1 : 1 ≤ h)
    (h2 : h ≤ (mctsSearch O root fuel maxN).nodes.length) (hj : j < 12)
    (hpend : fullyExp O (mctsSearch O root fuel maxN).nodes
        ((getNode O (mctsSearch O root fuel maxN).nodes h).nbs.getD j 0) = false) :
    (getNode O (mctsSearch O root fuel maxN).nodes h).w.getD j 0 = 0 := by
  have inv := mInv_search O root fuel maxN
  have hlen : (getNode O (mctsSearch O root fuel maxN).nodes h).nbs.length = 12 :=
    (inv.lens _ (getNode_mem O _ h h1 h2)).1
  rw [List.getD_eq_getElem _ _ (by rw [hlen]; exact hj)] at hpend
  rw [inv.wOk h h1 h2, wRule]
  rw [List.getD_eq_getElem _ _ (by rw [List.length_map, hlen]; exact hj)]
  rw [List.getElem_map]
  rw [if_neg (by rw [hpend]; simp)]

/-- Claim C7: the best-first engine's `get_neighbors` returns exactly 12 successor
states, one per action, for any state, including the solved state. -/
theorem C7_astar_neighbors {sigma : Type} (O : Oracle sigma) (s : sigma) :
    (astarNeighbors O s).length = 12 ∧
    ∀ j, j < 12 → (astarNeighbors O s).getD j O.solved = O.rotate s j := by
  refine ⟨by rw [astarNeighbors, List.length_map, List.length_range], ?_⟩
  intro j hj
  rw [astarNeighbors, List.getD_eq_getElem _ _ (by simpa using hj), List.getElem_map]
  simp

/-- A tiny concrete oracle over natural-number states whose 12 actions all map `s` to
`(s + 1) % 3` and whose solved state 99 is unreachable; every evaluator value is 0. -/
def cycOracle : Oracle Nat :=
  { rotate := fun s _ => (s + 1) % 3, solved := 99, netV := fun _ => 0,
    netP := fun _ _ => 0, cExp := 1 }

/-- A tiny concrete oracle whose 12 actions all map `s` to `s + 1`, with solved state
1, so a search from root 0 succeeds after one expansion. -/
def linOracle : Oracle Nat :=
  { rotate := fun s _ => s + 1, solved := 1, netV := fun _ => 0,
    netP := fun _ _ => 0, cExp := 1 }

/-- Claim C1 witness: a two-iteration session on the cyclic toy oracle, handle 1,
action 0. -/
theorem C1_witness :
    (getNode cycOracle (mctsSearch cycOracle 0 2 none).nodes 1).w.getD 0 0
      = if fullyExp cycOracle (mctsSearch cycOracle 0 2 none).nodes
            ((getNode cycOracle (mctsSearch cycOracle 0 2 none).nodes 1).nbs.getD 0 0)
        then maxGrand cycOracle (mctsSearch cycOracle 0 2 none).nodes
            ((getNode cycOracle (mctsSearch cycOracle 0 2 none).nodes 1).nbs.getD 0 0)
        else 0 :=
  C1_w_finalization cycOracle 0 2 none 1 0 (by decide) (by decide) (by decide)

/-- Claim C3 witness: on the cyclic toy oracle the handles after two iterations form
the range 1..K, the root key maps to handle 1, and the storage after one iteration is
a prefix of the final storage. -/
theorem C3_witness :
    handleList (mctsSearch cycOracle 0 2 none).nodes
      = List.range' 1 (tableSize (mctsSearch cycOracle 0 2 none).nodes) ∧
    tableSize (mctsSearch cycOracle 0 2 none).nodes
      = (mctsSearch cycOracle 0 2 none).nodes.length ∧
    lookupH (mctsSearch cycOracle 0 2 none).nodes 0 = some 1 ∧
    stsOf ((mctsStep cycOracle none)^[1] (mctsInit cycOracle 0)).nodes
      <+: stsOf (mctsSearch cycOracle 0 2 none).nodes :=
  ⟨(C3_handles_contiguous cycOracle 0 2 none).1,
   (C3_handles_contiguous cycOracle 0 2 none).2.1,
   (C3_handles_contiguous cycOracle 0 2 none).2.2.1,
   (C3_handles_contiguous cycOracle 0 2 none).2.2.2 1 (by decide)⟩

/-- Claim C4 witness: round-trip for handle 2 of the two-iteration session on the
cyclic toy oracle. -/
theorem C4_witness :
    lookupH (mctsSearch cycOracle 0 2 none).nodes
        ((getNode cycOracle (mctsSearch cycOracle 0 2 none).nodes 2).st) = some 2 ∧
    (getNode cycOracle (mctsSearch cycOracle 0 2 none).nodes 2).st = 1 :=
  ⟨(C4_roundtrip cycOracle 0 2 none).1 2 (by decide) (by decide),
   (C4_roundtrip cycOracle 0 2 none).2 1 2 (by decide)⟩

/-- Claim C5 witness: on the linear toy oracle the search succeeds and the drained
action queue rotates the root into the solved state. -/
theorem C5_witness :
    drainAll (queueOf (mctsSearch linOracle 0 3 none))
        = queueOf (mctsSearch linOracle 0 3 none) ∧
    List.foldl linOracle.rotate 0 (queueOf (mctsSearch linOracle 0 3 none))
      = linOracle.solved :=
  C5_queue_solves linOracle 0 3 none (by decide)

/-- Claim C6 counterexample: after two iterations on the cyclic toy oracle, the entry
`W[1][0]` is finalized (its child's neighbor row is fully non-absent) yet stores
exactly 0, while the entry `W[3][0]` is still pending and also stores 0: the engine's
stored values conflate a finalized zero with the pending marker. -/
theorem C6_counterexample :
    fullyExp cycOracle (mctsSearch cycOracle 0 2 none).nodes
        ((getNode cycOracle (mctsSearch cycOracle 0 2 none).nodes 1).nbs.getD 0 0)
      = true ∧
    (getNode cycOracle (mctsSearch cycOracle 0 2 none).nodes 1).w.getD 0 0 = 0 ∧
    fullyExp cycOracle (mctsSearch cycOracle 0 2 none).nodes
        ((getNode cycOracle (mctsSearch cycOracle 0 2 none).nodes 3).nbs.getD 0 0)
      = false ∧
    (getNode cycOracle (mctsSearch cycOracle 0 2 none).nodes 3).w.getD 0 0 = 0 := by
  decide

/-- Claim C6 witness (for the amended claim): a pending entry of the same session
holds exactly the marker 0. -/
theorem C6_witness :
    (getNode cycOracle (mctsSearch cycOracle 0 2 none).nodes 3).w.getD 0 0 = 0 :=
  C6_pending_holds_zero cycOracle 0 2 none 3 0 (by decide) (by decide) (by decide)
    (by decide)

/-- Claim C7 witness: the best-first neighbor generator on the solved state of the
cyclic toy oracle. -/
theorem C7_witness :
    (astarNeighbors cycOracle 99).length = 12 ∧
    (astarNeighbors cycOracle 99).getD 0 cycOracle.solved = cycOracle.rotate 99 0 :=
  ⟨(C7_astar_neighbors cycOracle 99).1, (C7_astar_neighbors cycOracle 99).2 0 (by decide)⟩
